import Mathlib

/-!
Verification of the JSON frame serializer (`JSONFrameSerializer`) of this
repository.  The serializer converts dynamically shaped "frame" objects
to JSON wire text and back, special-casing binary blobs (`Uint8Array`,
encoded as base64 with a sibling `__<field>_is_bytes__` marker) and
tuple-flagged arrays (sibling `__<field>_is_tuple__` marker), plus
dedicated `audio` and `message` envelopes.

The development shallowly embeds the JavaScript code:

* `Json` / `jsonChars` / `parseVal` model the JSON wire text together
  with the host `JSON.stringify` / `JSON.parse` pair (integral numbers;
  strings escape quote and backslash).
* `Value` models the JavaScript runtime values the serializer touches.
* `serialize`, `serializeAudio`, `serializeMessage`, `deserialize` and
  their helpers are direct transcriptions of the source methods.
-/

namespace FrameCodec

/-! ## Decimal digits -/

def digitChar (n : Nat) : Char := Char.ofNat (48 + n)

def digitVal (c : Char) : Nat := c.toNat - 48

def isDigitCh (c : Char) : Bool := decide (48 ≤ c.toNat) && decide (c.toNat ≤ 57)

/-- Decimal digits of a natural number, least significant first (fueled). -/
def natDigitsRev : Nat → Nat → List Char
  | 0, _ => []
  | fuel+1, n => if n < 10 then [digitChar n] else digitChar (n % 10) :: natDigitsRev fuel (n / 10)

/-- Decimal representation of a natural number, most significant first. -/
def natChars (n : Nat) : List Char := (natDigitsRev (n + 1) n).reverse

def natStr (n : Nat) : String := String.mk (natChars n)

/-- Decimal representation of an integer. -/
def intChars : Int → List Char
  | Int.ofNat n => natChars n
  | Int.negSucc m => '-' :: natChars (m + 1)

/-! ## JSON string quoting -/

def quoteChar (c : Char) : List Char := if c = '"' || c = '\\' then ['\\', c] else [c]

def quoteChars : List Char → List Char
  | [] => []
  | c :: cs => quoteChar c ++ quoteChars cs

/-- A JSON string literal: quote, escaped body, quote. -/
def quoteString (s : String) : List Char := '"' :: quoteChars s.data ++ ['"']

/-! ## JSON trees and their wire text -/

/-- The JSON values the codec exchanges.  Numbers are integral:
every number the serializer itself emits is an integer. -/
inductive Json where
  | null
  | bool (b : Bool)
  | num (n : Int)
  | str (s : String)
  | arr (items : List Json)
  | obj (fields : List (String × Json))

mutual

/-- Wire text of a JSON value (the output of the host JSON stringifier). -/
def jsonChars : Json → List Char
  | .null => "null".data
  | .bool true => "true".data
  | .bool false => "false".data
  | .num n => intChars n
  | .str s => quoteString s
  | .arr items => '[' :: jsonItemsChars items ++ [']']
  | .obj fields => '\x7b' :: jsonFieldsChars fields ++ ['\x7d']

def jsonItemsChars : List Json → List Char
  | [] => []
  | j :: rest => jsonChars j ++ jsonItemsMore rest

def jsonItemsMore : List Json → List Char
  | [] => []
  | j :: rest => ',' :: (jsonChars j ++ jsonItemsMore rest)

def jsonFieldsChars : List (String × Json) → List Char
  | [] => []
  | (k, v) :: rest => quoteString k ++ ':' :: jsonChars v ++ jsonFieldsMore rest

def jsonFieldsMore : List (String × Json) → List Char
  | [] => []
  | (k, v) :: rest => ',' :: (quoteString k ++ ':' :: jsonChars v ++ jsonFieldsMore rest)

end

def jsonStr (j : Json) : String := String.mk (jsonChars j)

/-! ## JSON parsing (the host JSON parser, fueled recursive descent) -/

/-- Longest digit run at the head of the input. -/
def takeDigits : List Char → List Char × List Char
  | [] => ([], [])
  | c :: cs =>
    if isDigitCh c then
      let p := takeDigits cs
      (c :: p.1, p.2)
    else ([], c :: cs)

def digitsToNat (acc : Nat) : List Char → Nat
  | [] => acc
  | c :: cs => digitsToNat (acc * 10 + digitVal c) cs

def parseNat (cs : List Char) : Option (Nat × List Char) :=
  match takeDigits cs with
  | ([], _) => none
  | (ds, rest) => some (digitsToNat 0 ds, rest)

/-- Body of a JSON string literal after the opening quote: an escaped
character stands for itself. -/
def parseStrBody : List Char → Option (List Char × List Char)
  | [] => none
  | c :: cs =>
    if c = '"' then some ([], cs)
    else if c = '\\' then
      match cs with
      | [] => none
      | d :: cs' =>
        match parseStrBody cs' with
        | none => none
        | some (body, rest) => some (d :: body, rest)
    else
      match parseStrBody cs with
      | none => none
      | some (body, rest) => some (c :: body, rest)

mutual

/-- Parse one JSON value.  Fuel only bounds recursion depth; the
top-level wrapper supplies more fuel than any input can consume. -/
def parseVal : Nat → List Char → Option (Json × List Char)
  | 0, _ => none
  | _+1, [] => none
  | fuel+1, c :: cs =>
    if c = 'n' then
      match cs with
      | 'u' :: 'l' :: 'l' :: rest => some (.null, rest)
      | _ => none
    else if c = 't' then
      match cs with
      | 'r' :: 'u' :: 'e' :: rest => some (.bool true, rest)
      | _ => none
    else if c = 'f' then
      match cs with
      | 'a' :: 'l' :: 's' :: 'e' :: rest => some (.bool false, rest)
      | _ => none
    else if c = '"' then
      match parseStrBody cs with
      | none => none
      | some (body, rest) => some (.str (String.mk body), rest)
    else if c = '-' then
      match parseNat cs with
      | none => none
      | some (n, rest) => some (.num (-(n : Int)), rest)
    else if c = '[' then
      parseArrItems fuel cs
    else if c = '\x7b' then
      parseObjFields fuel cs
    else if isDigitCh c then
      match parseNat (c :: cs) with
      | none => none
      | some (n, rest) => some (.num (n : Int), rest)
    else none

/-- After an opening bracket: empty array or one-or-more items. -/
def parseArrItems : Nat → List Char → Option (Json × List Char)
  | 0, _ => none
  | fuel+1, cs =>
    if cs.head? = some ']' then some (.arr [], cs.tail)
    else
      match parseItemsRest fuel cs with
      | none => none
      | some (items, rest) => some (.arr items, rest)

/-- One or more comma-separated items followed by a closing bracket. -/
def parseItemsRest : Nat → List Char → Option (List Json × List Char)
  | 0, _ => none
  | fuel+1, cs =>
    match parseVal fuel cs with
    | none => none
    | some (j, rest) =>
      match rest with
      | ',' :: rest' =>
        match parseItemsRest fuel rest' with
        | none => none
        | some (items, rest'') => some (j :: items, rest'')
      | ']' :: rest' => some ([j], rest')
      | _ => none

/-- After an opening brace: empty object or one-or-more members. -/
def parseObjFields : Nat → List Char → Option (Json × List Char)
  | 0, _ => none
  | fuel+1, cs =>
    if cs.head? = some '\x7d' then some (.obj [], cs.tail)
    else
      match parseFieldsRest fuel cs with
      | none => none
      | some (fields, rest) => some (.obj fields, rest)

/-- One or more comma-separated members followed by a closing brace. -/
def parseFieldsRest : Nat → List Char → Option (List (String × Json) × List Char)
  | 0, _ => none
  | fuel+1, cs =>
    match cs with
    | '"' :: cs1 =>
      match parseStrBody cs1 with
      | none => none
      | some (key, cs2) =>
        match cs2 with
        | ':' :: cs3 =>
          match parseVal fuel cs3 with
          | none => none
          | some (v, rest) =>
            match rest with
            | ',' :: rest' =>
              match parseFieldsRest fuel rest' with
              | none => none
              | some (fields, rest'') => some ((String.mk key, v) :: fields, rest'')
            | '\x7d' :: rest' => some ([(String.mk key, v)], rest')
            | _ => none
        | _ => none
    | _ => none

end

/-- The host JSON parser (`JSON.parse`): it either yields a JSON value
for the whole input, or throws (modeled as `Except.error`). -/
def jsonParse (s : String) : Except Unit Json :=
  match parseVal (2 * s.length + 2) s.data with
  | some (j, []) => .ok j
  | _ => .error ()

/-! ## Base64 (the host `btoa` / `atob` pair) -/

def b64Alphabet : List Char :=
  "ABCDEFGHIJKLMNOPQRSTUVWXYZabcdefghijklmnopqrstuvwxyz0123456789+/".data

def b64Char (n : Nat) : Char := b64Alphabet.getD n 'A'

def sextetOf (c : Char) : Option Nat := b64Alphabet.indexOf? c

/-- Base64 text of a byte list (3-byte groups, `=`-padded). -/
def b64EncodeBytes : List Nat → List Char
  | [] => []
  | [b0] => [b64Char (b0 / 4), b64Char (b0 % 4 * 16), '=', '=']
  | [b0, b1] => [b64Char (b0 / 4), b64Char (b0 % 4 * 16 + b1 / 16), b64Char (b1 % 16 * 4), '=']
  | b0 :: b1 :: b2 :: rest =>
    b64Char (b0 / 4) :: b64Char (b0 % 4 * 16 + b1 / 16) ::
      b64Char (b1 % 16 * 4 + b2 / 64) :: b64Char (b2 % 64) :: b64EncodeBytes rest

/-- `btoa` on a byte string (the source always passes bytes below 256). -/
def btoa (bs : List Nat) : String := String.mk (b64EncodeBytes bs)

/-- Forgiving base64 decoding of a character list; `none` models the
`InvalidCharacterError` thrown by `atob`. -/
def atobChars : List Char → Option (List Nat)
  | [] => some []
  | c0 :: c1 :: c2 :: c3 :: rest =>
    if rest.isEmpty then
      if c2 = '=' && c3 = '=' then
        match sextetOf c0, sextetOf c1 with
        | some s0, some s1 => some [s0 * 4 + s1 / 16]
        | _, _ => none
      else if c3 = '=' then
        match sextetOf c0, sextetOf c1, sextetOf c2 with
        | some s0, some s1, some s2 => some [s0 * 4 + s1 / 16, s1 % 16 * 16 + s2 / 4]
        | _, _, _ => none
      else
        match sextetOf c0, sextetOf c1, sextetOf c2, sextetOf c3 with
        | some s0, some s1, some s2, some s3 =>
          some [s0 * 4 + s1 / 16, s1 % 16 * 16 + s2 / 4, s2 % 4 * 64 + s3]
        | _, _, _, _ => none
    else
      match sextetOf c0, sextetOf c1, sextetOf c2, sextetOf c3 with
      | some s0, some s1, some s2, some s3 =>
        match atobChars rest with
        | none => none
        | some bs => some ((s0 * 4 + s1 / 16) :: (s1 % 16 * 16 + s2 / 4) :: (s2 % 4 * 64 + s3) :: bs)
      | _, _, _, _ => none
  | [c0, c1] =>
    match sextetOf c0, sextetOf c1 with
    | some s0, some s1 => some [s0 * 4 + s1 / 16]
    | _, _ => none
  | [c0, c1, c2] =>
    match sextetOf c0, sextetOf c1, sextetOf c2 with
    | some s0, some s1, some s2 => some [s0 * 4 + s1 / 16, s1 % 16 * 16 + s2 / 4]
    | _, _, _ => none
  | _ => none

/-- `atob`: decode or throw. -/
def atob (s : String) : Except Unit (List Nat) :=
  match atobChars s.data with
  | some bs => .ok bs
  | none => .error ()

/-! ## The JavaScript runtime values the serializer touches -/

/-- JavaScript values, as far as the serializer distinguishes them.
`vframe` is an object whose `constructor.name` is `tag` (the tag itself
is not an own enumerable property, as for class instances and for the
plain-object-plus-`constructor`-field records `_dictToFrame` builds).
`varr` carries the `__isTuple__` flag used to mark tuple-shaped arrays.
`vfunc` carries the string coercion of the function. -/
inductive Value where
  | vnull
  | vundef
  | vbool (b : Bool)
  | vnum (n : Int)
  | vstr (s : String)
  | vbytes (bytes : List Nat)
  | varr (isTuple : Bool) (items : List Value)
  | vobj (fields : List (String × Value))
  | vframe (tag : String) (fields : List (String × Value))
  | vfunc (src : String)

/-- First-match association lookup (JS own-property access on a record;
key lists coming from JS objects have no duplicates). -/
def lookupStr {α : Type} : List (String × α) → String → Option α
  | [], _ => none
  | (k', v) :: rest, k => if k' = k then some v else lookupStr rest k

def hasKeyStr {α : Type} (l : List (String × α)) (k : String) : Bool :=
  (lookupStr l k).isSome

/-- `key.startsWith("__")` (covers the three-underscore keys as well). -/
def startsU2 (s : String) : Bool :=
  match s.data with
  | '_' :: '_' :: _ => true
  | _ => false

def markerBytesKey (k : String) : String := "__" ++ k ++ "_is_bytes__"

def markerTupleKey (k : String) : String := "__" ++ k ++ "_is_tuple__"

/-- The well-known base frame fields, in the order `_frameToDict` copies
them and `_dictToFrame` restores them. -/
def baseKeys : List String :=
  ["id", "name", "pts", "metadata", "transport_source", "transport_destination"]

/-- Index-keyed entries (the own enumerable properties of a typed array,
a string, or an array). -/
def indexEntries (f : α → Value) : Nat → List α → List (String × Value)
  | _, [] => []
  | i, x :: rest => (natStr i, f x) :: indexEntries f (i + 1) rest

/-- Own enumerable properties, in `for..in` order.  Arrays expose their
indices plus the `__isTuple__` flag when set; typed arrays and strings
expose their indices; primitives have none. -/
def ownFields : Value → List (String × Value)
  | .vobj fs => fs
  | .vframe _ fs => fs
  | .varr tup items =>
    indexEntries id 0 items ++ (if tup then [("__isTuple__", Value.vbool true)] else [])
  | .vbytes bs => indexEntries (fun b => Value.vnum (b : Int)) 0 bs
  | .vstr s => indexEntries (fun c => Value.vstr (String.mk [c])) 0 s.data
  | _ => []

/-- `value.constructor.name`; accessing it on `null` or `undefined`
throws a `TypeError`. -/
def ctorName : Value → Except Unit String
  | .vnull => .error ()
  | .vundef => .error ()
  | .vbool _ => .ok "Boolean"
  | .vnum _ => .ok "Number"
  | .vstr _ => .ok "String"
  | .vbytes _ => .ok "Uint8Array"
  | .varr _ _ => .ok "Array"
  | .vobj _ => .ok "Object"
  | .vframe t _ => .ok t
  | .vfunc _ => .ok "Function"

/-- JavaScript truthiness (the model has no NaN). -/
def truthy : Value → Bool
  | .vnull => false
  | .vundef => false
  | .vbool b => b
  | .vnum n => decide (n ≠ 0)
  | .vstr s => decide (s ≠ "")
  | _ => true

/-- `typeof value === "object" && value !== null`. -/
def isObjLike : Value → Bool
  | .vobj _ => true
  | .vframe _ _ => true
  | .varr _ _ => true
  | .vbytes _ => true
  | _ => false

mutual

/-- `String(value)`. -/
def jsToString : Value → String
  | .vnull => "null"
  | .vundef => "undefined"
  | .vbool true => "true"
  | .vbool false => "false"
  | .vnum n => String.mk (intChars n)
  | .vstr s => s
  | .vbytes bs => String.intercalate "," (bs.map natStr)
  | .varr _ items => jsItemsString items
  | .vobj _ => "[object Object]"
  | .vframe _ _ => "[object Object]"
  | .vfunc src => src

/-- `Array.prototype.toString`: comma join, with null and undefined
items printed as empty. -/
def jsItemsString : List Value → String
  | [] => ""
  | v :: rest =>
    (match v with
     | .vnull => ""
     | .vundef => ""
     | w => jsToString w) ++
    (match rest with
     | [] => ""
     | _ => "," ++ jsItemsString rest)

end

/-! ## `JSON.stringify` and `JSON.parse` on runtime values -/

def bytesIndexJson : Nat → List Nat → List (String × Json)
  | _, [] => []
  | i, b :: rest => (natStr i, Json.num (b : Int)) :: bytesIndexJson (i + 1) rest

mutual

/-- The JSON tree denoted by `JSON.stringify(value)`; `none` when the
result is undefined (top-level `undefined` or function).  A typed array
stringifies through its index properties; extra array properties (the
tuple flag) are dropped; object entries holding undefined or a function
are dropped; a frame object stringifies through its own enumerable
fields. -/
def toJson : Value → Option Json
  | .vnull => some .null
  | .vundef => none
  | .vfunc _ => none
  | .vbool b => some (.bool b)
  | .vnum n => some (.num n)
  | .vstr s => some (.str s)
  | .vbytes bs => some (.obj (bytesIndexJson 0 bs))
  | .varr _ items => some (.arr (toJsonItems items))
  | .vobj fields => some (.obj (toJsonFields fields))
  | .vframe _ fields => some (.obj (toJsonFields fields))

def toJsonItems : List Value → List Json
  | [] => []
  | v :: rest =>
    (match toJson v with
     | some j => j
     | none => Json.null) :: toJsonItems rest

def toJsonFields : List (String × Value) → List (String × Json)
  | [] => []
  | (k, v) :: rest =>
    match toJson v with
    | some j => (k, j) :: toJsonFields rest
    | none => toJsonFields rest

end

mutual

/-- The runtime value a parsed JSON tree denotes (`JSON.parse` output):
arrays are plain (not tuple-flagged), objects are plain objects. -/
def jsValueOfJson : Json → Value
  | .null => .vnull
  | .bool b => .vbool b
  | .num n => .vnum n
  | .str s => .vstr s
  | .arr items => .varr false (jsListOfJson items)
  | .obj fields => .vobj (jsFieldsOfJson fields)

def jsListOfJson : List Json → List Value
  | [] => []
  | j :: rest => jsValueOfJson j :: jsListOfJson rest

def jsFieldsOfJson : List (String × Json) → List (String × Value)
  | [] => []
  | (k, j) :: rest => (k, jsValueOfJson j) :: jsFieldsOfJson rest

end

/-! ## The serializer (`serialize` and helpers) -/

/-- The bytes marker `_frameToDict` emits next to a `Uint8Array` field. -/
def bytesMarkerOf (k : String) : Value → List (String × Value)
  | .vbytes _ => [(markerBytesKey k, Value.vbool true)]
  | _ => []

/-- The tuple marker `_frameToDict` emits next to a tuple-flagged array
field. -/
def tupleMarkerOf (k : String) : Value → List (String × Value)
  | .varr true _ => [(markerTupleKey k, Value.vbool true)]
  | _ => []

/-- The base-field pass of `_frameToDict` / the base-field restore of
`_dictToFrame`: each well-known key present on the record is copied
with its raw value, in the fixed order of `baseKeys`. -/
def baseEntriesOf (fields : List (String × Value)) : List (String × Value) :=
  baseKeys.filterMap (fun k => (lookupStr fields k).map (fun v => (k, v)))

mutual

/-- `_serializeValue`. -/
def serializeValue : Value → Value
  | .vnull => .vnull
  | .vbool b => .vbool b
  | .vnum n => .vnum n
  | .vstr s => .vstr s
  | .vbytes bs => .vstr (btoa bs)
  | .varr _ items => .varr false (serializeItems items)
  | .vobj fields =>
    if hasKeyStr fields "___frame___" then
      Value.vobj (("___frame___", Value.vstr "Object") ::
        baseEntriesOf fields ++ frameEntries fields)
    else Value.vobj (serializeObjFields fields)
  | .vframe t fields =>
    if hasKeyStr fields "___frame___" then
      Value.vobj (("___frame___", Value.vstr t) ::
        baseEntriesOf fields ++ frameEntries fields)
    else Value.vobj (serializeObjFields fields)
  | .vundef => .vstr "undefined"
  | .vfunc src => .vstr src

def serializeItems : List Value → List Value
  | [] => []
  | v :: rest => serializeValue v :: serializeItems rest

def serializeObjFields : List (String × Value) → List (String × Value)
  | [] => []
  | (k, v) :: rest => (k, serializeValue v) :: serializeObjFields rest

/-- The main `for..in` loop of `_frameToDict`: skip keys already in the
dict (the base keys) and keys starting with underscores; emit the
bytes/tuple marker for a `Uint8Array` or tuple-flagged array value;
store the serialized value. -/
def frameEntries : List (String × Value) → List (String × Value)
  | [] => []
  | (k, v) :: rest =>
    if baseKeys.contains k || startsU2 k then frameEntries rest
    else
      bytesMarkerOf k v ++ tupleMarkerOf k v ++ (k, serializeValue v) :: frameEntries rest

end

/-- `_frameToDict`: the type tag from `constructor.name` (throws for
`undefined`), the base fields raw, then the marker/field entries. -/
def frameToDict (frame : Value) : Except Unit (List (String × Value)) :=
  match ctorName frame with
  | .error e => .error e
  | .ok tn =>
    .ok (("___frame___", Value.vstr tn) ::
      baseEntriesOf (ownFields frame) ++ frameEntries (ownFields frame))

/-- Result of `serialize`: a payload string, `null`, or a thrown
exception escaping the method. -/
inductive SerResult where
  | thrown
  | retNull
  | payload (s : String)

/-- `serialize`: null in, null out; otherwise stringify the frame dict;
on an exception the catch block logs `frame.constructor.name`, which
itself throws when the frame is `undefined`. -/
def serialize (frame : Value) : SerResult :=
  match frame with
  | .vnull => .retNull
  | _ =>
    match frameToDict frame with
    | .ok dict => .payload (String.mk (jsonChars (Json.obj (toJsonFields dict))))
    | .error _ =>
      match ctorName frame with
      | .ok _ => .retNull
      | .error _ => .thrown

/-- `serializeAudio`: base64 the bytes and stringify the audio envelope
(keys in insertion order). -/
def serializeAudio (data : List Nat) (sample_rate num_channels : Int) : String :=
  String.mk (jsonChars (Json.obj
    [("___type___", Json.str "audio"),
     ("audio", Json.str (btoa data)),
     ("sample_rate", Json.num sample_rate),
     ("num_channels", Json.num num_channels)]))

/-- `serializeMessage`: stringify the message envelope (the `message`
key is dropped by `JSON.stringify` when the message is undefined). -/
def serializeMessage (msg : Value) : String :=
  String.mk (jsonChars (Json.obj
    (("___type___", Json.str "message") ::
      (match toJson msg with
       | some j => [("message", j)]
       | none => []))))

/-! ## The deserializer (`deserialize` and helpers) -/

def bytesIndexEntries : Nat → List Nat → List (String × Value)
  | _, [] => []
  | i, b :: rest => (natStr i, Value.vnum (b : Int)) :: bytesIndexEntries (i + 1) rest

mutual

/-- `_deserializeValue(value, isBytes, isTuple)`.  A string field whose
bytes marker is set is base64-decoded (`atob` may throw); arrays recurse
and receive the tuple flag; an object carrying the `___frame___` key is
rebuilt through the `_dictToFrame` logic (whose own catch turns any
throw into null); other objects recurse field-wise into a plain object.
A typed array falls into the plain-object branch and comes back as an
index-keyed plain object. -/
def deserializeValue : Value → Bool → Bool → Except Unit Value
  | .vnull, _, _ => .ok .vnull
  | .vstr s, isBytes, _ =>
    if isBytes then
      match atob s with
      | .error e => .error e
      | .ok bs => .ok (.vbytes bs)
    else .ok (.vstr s)
  | .vnum n, _, _ => .ok (.vnum n)
  | .vbool b, _, _ => .ok (.vbool b)
  | .varr _ items, _, isTuple =>
    match deserializeItems items with
    | .error e => .error e
    | .ok items' => .ok (.varr isTuple items')
  | .vobj fields, _, _ =>
    if hasKeyStr fields "___frame___" then
      .ok (if truthy ((lookupStr fields "___frame___").getD .vundef) = false then Value.vnull
        else
          match buildArgs fields fields with
          | .error _ => Value.vnull
          | .ok args =>
            Value.vframe (jsToString ((lookupStr fields "___frame___").getD .vundef))
              (args ++ baseEntriesOf fields))
    else
      match deserializeFields fields with
      | .error e => .error e
      | .ok fields' => .ok (.vobj fields')
  | .vframe _ fields, _, _ =>
    if hasKeyStr fields "___frame___" then
      .ok (if truthy ((lookupStr fields "___frame___").getD .vundef) = false then Value.vnull
        else
          match buildArgs fields fields with
          | .error _ => Value.vnull
          | .ok args =>
            Value.vframe (jsToString ((lookupStr fields "___frame___").getD .vundef))
              (args ++ baseEntriesOf fields))
    else
      match deserializeFields fields with
      | .error e => .error e
      | .ok fields' => .ok (.vobj fields')
  | .vbytes bs, _, _ => .ok (.vobj (bytesIndexEntries 0 bs))
  | .vundef, _, _ => .ok .vundef
  | .vfunc src, _, _ => .ok (.vfunc src)

/-- The item loop of the array branch.  (The source routes an item that
carries the `___frame___` key to `_dictToFrame` and every other item to
`_deserializeValue`; since `_deserializeValue` performs exactly that
dispatch for objects, the loop is a plain map.) -/
def deserializeItems : List Value → Except Unit (List Value)
  | [] => .ok []
  | item :: rest =>
    match deserializeValue item false false with
    | .error e => .error e
    | .ok v =>
      match deserializeItems rest with
      | .error e => .error e
      | .ok vs => .ok (v :: vs)

/-- The field loop of the plain-object branch. -/
def deserializeFields : List (String × Value) → Except Unit (List (String × Value))
  | [] => .ok []
  | (k, v) :: rest =>
    match deserializeValue v false false with
    | .error e => .error e
    | .ok v' =>
      match deserializeFields rest with
      | .error e => .error e
      | .ok rest' => .ok ((k, v') :: rest')

/-- The constructor-argument loop of `_dictToFrame`: walk the dict in
order, skip marker/underscore keys and base keys, consult the sibling
markers (in the whole dict `all`), and deserialize each remaining
value.  A throw aborts the whole loop. -/
def buildArgs : List (String × Value) → List (String × Value) → Except Unit (List (String × Value))
  | _, [] => .ok []
  | all, (k, v) :: rest =>
    if startsU2 k || baseKeys.contains k then buildArgs all rest
    else
      match deserializeValue v
        (truthy ((lookupStr all (markerBytesKey k)).getD .vundef))
        (truthy ((lookupStr all (markerTupleKey k)).getD .vundef)) with
      | .error e => .error e
      | .ok v' =>
        match buildArgs all rest with
        | .error e => .error e
        | .ok rest' => .ok ((k, v') :: rest')

end

/-- `_dictToFrame`: null when the frame-type key is falsy; otherwise the
reconstructed frame — constructor arguments from the marker-aware loop,
then the base fields copied raw — with any internal throw caught and
turned into null.  (The tag stored in the frame is the string coercion
of the frame-type value; on every dict the decoder builds it is already
a string.) -/
def dictToFrame (d : Value) : Value :=
  if truthy ((lookupStr (ownFields d) "___frame___").getD .vundef) = false then .vnull
  else
    match buildArgs (ownFields d) (ownFields d) with
    | .error _ => .vnull
    | .ok args =>
      Value.vframe (jsToString ((lookupStr (ownFields d) "___frame___").getD .vundef))
        (args ++ baseEntriesOf (ownFields d))

/-- 16-bit little-endian signed samples of a byte list of even length
(`new Int16Array(bytes.buffer)`). -/
def bytesToSamples : List Nat → List Int
  | [] => []
  | [_] => []
  | b0 :: b1 :: rest =>
    (if b0 + 256 * b1 < 32768 then ((b0 + 256 * b1 : Nat) : Int)
     else ((b0 + 256 * b1 : Nat) : Int) - 65536) :: bytesToSamples rest

/-- The record `_deserializeAudio` builds: the sample buffer, plus the
values read from the `sampleRate` / `numChannels` keys (note: the keys
`serializeAudio` writes are `sample_rate` / `num_channels`). -/
structure AudioRecord where
  samples : List Int
  sampleRateRead : Value
  numChannelsRead : Value

/-- `_deserializeAudio`: `atob(frameDict.audio)` (coercing the field to
a string, throwing on invalid base64), then reinterpret the bytes as
16-bit samples (`new Int16Array` throws when the byte length is odd). -/
def deserializeAudio (d : Value) : Except Unit AudioRecord :=
  match atob (jsToString ((lookupStr (ownFields d) "audio").getD .vundef)) with
  | .error e => .error e
  | .ok bytes =>
    if bytes.length % 2 = 0 then
      .ok ⟨bytesToSamples bytes,
        (lookupStr (ownFields d) "sampleRate").getD .vundef,
        (lookupStr (ownFields d) "numChannels").getD .vundef⟩
    else .error ()

/-- The three result shapes `deserialize` resolves with.  The audio
branch resolves only the sample buffer (the source drops the rate and
channel-count fields of the internal record). -/
inductive DecodeResult where
  | audio (samples : List Int)
  | message (msg : Value)
  | raw (msg : Value)

def isStrEq (v : Value) (s : String) : Bool :=
  match v with
  | .vstr s' => s' = s
  | _ => false

/-- The body of `deserialize` after parsing: reading `___type___` on
`null`/`undefined` throws; the `audio` and `message` discriminators take
their branches; everything else goes through `_dictToFrame`. -/
def deserializeParsed (d : Value) : Except Unit DecodeResult :=
  match d with
  | .vnull => .error ()
  | .vundef => .error ()
  | _ =>
    if isStrEq ((lookupStr (ownFields d) "___type___").getD .vundef) "audio" then
      match deserializeAudio d with
      | .error e => .error e
      | .ok r => .ok (.audio r.samples)
    else if isStrEq ((lookupStr (ownFields d) "___type___").getD .vundef) "message" then
      .ok (.message ((lookupStr (ownFields d) "message").getD .vundef))
    else .ok (.raw (dictToFrame d))

/-- `deserialize`: parse string input with `JSON.parse`, then dispatch
on the discriminator; any throw anywhere resolves to a raw null
result. -/
def deserialize (d : Value) : DecodeResult :=
  match
    (match d with
     | .vstr s =>
       match jsonParse s with
       | .error e => .error e
       | .ok j => .ok (jsValueOfJson j)
     | _ => .ok d : Except Unit Value) with
  | .error _ => .raw .vnull
  | .ok fd =>
    match deserializeParsed fd with
    | .ok r => r
    | .error _ => .raw .vnull

/-! ## Specification-side notions used by the theorems -/

/-- The wire value handed back to `deserialize` in a round trip:
the payload string when serialization produced one. -/
def wireOf : SerResult → Value
  | .payload s => .vstr s
  | .retNull => .vnull
  | .thrown => .vnull

mutual

/-- Parser-fuel weight of a JSON tree. -/
def jweight : Json → Nat
  | .null => 1
  | .bool _ => 1
  | .num _ => 1
  | .str _ => 1
  | .arr items => 2 + jweightItems items
  | .obj fields => 2 + jweightFields fields

def jweightItems : List Json → Nat
  | [] => 0
  | j :: rest => 1 + jweight j + jweightItems rest

def jweightFields : List (String × Json) → Nat
  | [] => 0
  | (_, v) :: rest => 1 + jweight v + jweightFields rest

end

/-- The head of the remaining input is not a decimal digit (so a number
literal before it ends there). -/
def NumOk (cs : List Char) : Prop :=
  ∀ c, cs.head? = some c → isDigitCh c = false

mutual

/-- JSON-compatible runtime values: exactly those on which the host
stringify/parse pair is the identity (no undefined, functions, binary
blobs, tuple flags or frames). -/
def jsonCompatible : Value → Bool
  | .vnull => true
  | .vbool _ => true
  | .vnum _ => true
  | .vstr _ => true
  | .varr tup items => !tup && jsonCompatibleList items
  | .vobj fields => jsonCompatibleFields fields
  | _ => false

def jsonCompatibleList : List Value → Bool
  | [] => true
  | v :: rest => jsonCompatible v && jsonCompatibleList rest

def jsonCompatibleFields : List (String × Value) → Bool
  | [] => true
  | (_, v) :: rest => jsonCompatible v && jsonCompatibleFields rest

end

mutual

/-- Values whose serialization never routes through the frame-dict
branch: no frames, no functions, no undefined, no object carrying the
`___frame___` key anywhere, and all byte values below 256. -/
def noFrames : Value → Bool
  | .vnull => true
  | .vbool _ => true
  | .vnum _ => true
  | .vstr _ => true
  | .vbytes bs => bs.all (fun b => decide (b < 256))
  | .varr _ items => noFramesList items
  | .vobj fields => !hasKeyStr fields "___frame___" && noFramesFields fields
  | .vframe _ _ => false
  | .vfunc _ => false
  | .vundef => false

def noFramesList : List Value → Bool
  | [] => true
  | v :: rest => noFrames v && noFramesList rest

def noFramesFields : List (String × Value) → Bool
  | [] => true
  | (_, v) :: rest => noFrames v && noFramesFields rest

end

mutual

/-- What survives a wire round trip below the top level of a frame
field: binary blobs collapse to their base64 text and tuple flags are
dropped, while lists stay lists and maps stay maps. -/
def erase : Value → Value
  | .vnull => .vnull
  | .vbool b => .vbool b
  | .vnum n => .vnum n
  | .vstr s => .vstr s
  | .vbytes bs => .vstr (btoa bs)
  | .varr _ items => .varr false (eraseList items)
  | .vobj fields => .vobj (eraseFields fields)
  | .vframe t fields => .vframe t fields
  | .vfunc src => .vfunc src
  | .vundef => .vundef

def eraseList : List Value → List Value
  | [] => []
  | v :: rest => erase v :: eraseList rest

def eraseFields : List (String × Value) → List (String × Value)
  | [] => []
  | (k, v) :: rest => (k, erase v) :: eraseFields rest

end

/-- What survives a wire round trip at the top level of a frame field,
where the sibling markers restore blob-ness and tuple-ness. -/
def topPreserve : Value → Value
  | .vbytes bs => .vbytes bs
  | .varr tup items => .varr tup (eraseList items)
  | v => erase v

/-- The bytes marker `_frameToDict` emits for a field value. -/
def isBytesV : Value → Bool
  | .vbytes _ => true
  | _ => false

/-- The tuple marker `_frameToDict` emits for a field value. -/
def isTupleV : Value → Bool
  | .varr true _ => true
  | _ => false

mutual

/-- Field values drawn from null, booleans, numbers, strings and nested
plain (untupled) lists of such: these round-trip unchanged at any
depth. -/
def deepSafe : Value → Bool
  | .vnull => true
  | .vbool _ => true
  | .vnum _ => true
  | .vstr _ => true
  | .varr tup items => !tup && deepSafeList items
  | _ => false

def deepSafeList : List Value → Bool
  | [] => true
  | v :: rest => deepSafe v && deepSafeList rest

end

/-- Top-level frame-field values of the amended round-trip claim:
deep-safe values, binary blobs, and tuple-flagged sequences of
deep-safe values. -/
def topSafe : Value → Bool
  | .vbytes bs => bs.all (fun b => decide (b < 256))
  | .varr true items => deepSafeList items
  | v => deepSafe v

/-- A generic frame-field name: not a well-known base key and not
underscore-prefixed. -/
def goodKey (k : String) : Bool := !baseKeys.contains k && !startsU2 k

/-! ## Induction principles for the nested inductives -/

mutual

/-- Structural induction over `Json`. -/
def jsonInd (P : Json → Prop) (hnull : P .null) (hbool : ∀ b, P (.bool b))
    (hnum : ∀ n, P (.num n)) (hstr : ∀ s, P (.str s))
    (harr : ∀ items, (∀ j ∈ items, P j) → P (.arr items))
    (hobj : ∀ fields, (∀ kv ∈ fields, P kv.2) → P (.obj fields)) : ∀ j, P j
  | .null => hnull
  | .bool b => hbool b
  | .num n => hnum n
  | .str s => hstr s
  | .arr items => harr items (jsonIndList P hnull hbool hnum hstr harr hobj items)
  | .obj fields => hobj fields (jsonIndFields P hnull hbool hnum hstr harr hobj fields)

def jsonIndList (P : Json → Prop) (hnull : P .null) (hbool : ∀ b, P (.bool b))
    (hnum : ∀ n, P (.num n)) (hstr : ∀ s, P (.str s))
    (harr : ∀ items, (∀ j ∈ items, P j) → P (.arr items))
    (hobj : ∀ fields, (∀ kv ∈ fields, P kv.2) → P (.obj fields)) :
    ∀ l : List Json, ∀ j ∈ l, P j
  | [], _, h => absurd h (List.not_mem_nil _)
  | x :: rest, j, h => by
    rcases List.mem_cons.mp h with h' | h'
    · exact h' ▸ jsonInd P hnull hbool hnum hstr harr hobj x
    · exact jsonIndList P hnull hbool hnum hstr harr hobj rest j h'

def jsonIndFields (P : Json → Prop) (hnull : P .null) (hbool : ∀ b, P (.bool b))
    (hnum : ∀ n, P (.num n)) (hstr : ∀ s, P (.str s))
    (harr : ∀ items, (∀ j ∈ items, P j) → P (.arr items))
    (hobj : ∀ fields, (∀ kv ∈ fields, P kv.2) → P (.obj fields)) :
    ∀ l : List (String × Json), ∀ kv ∈ l, P kv.2
  | [], _, h => absurd h (List.not_mem_nil _)
  | (k0, v0) :: rest, kv, h => by
    rcases List.mem_cons.mp h with h' | h'
    · exact h' ▸ jsonInd P hnull hbool hnum hstr harr hobj v0
    · exact jsonIndFields P hnull hbool hnum hstr harr hobj rest kv h'

end

mutual

/-- Structural induction over `Value`. -/
def valueInd (P : Value → Prop) (hnull : P .vnull) (hundef : P .vundef)
    (hbool : ∀ b, P (.vbool b)) (hnum : ∀ n, P (.vnum n)) (hstr : ∀ s, P (.vstr s))
    (hbytes : ∀ bs, P (.vbytes bs))
    (harr : ∀ tup items, (∀ v ∈ items, P v) → P (.varr tup items))
    (hobj : ∀ fields, (∀ kv ∈ fields, P kv.2) → P (.vobj fields))
    (hframe : ∀ t fields, (∀ kv ∈ fields, P kv.2) → P (.vframe t fields))
    (hfunc : ∀ src, P (.vfunc src)) : ∀ v, P v
  | .vnull => hnull
  | .vundef => hundef
  | .vbool b => hbool b
  | .vnum n => hnum n
  | .vstr s => hstr s
  | .vbytes bs => hbytes bs
  | .varr tup items =>
    harr tup items (valueIndList P hnull hundef hbool hnum hstr hbytes harr hobj hframe hfunc items)
  | .vobj fields =>
    hobj fields (valueIndFields P hnull hundef hbool hnum hstr hbytes harr hobj hframe hfunc fields)
  | .vframe t fields =>
    hframe t fields
      (valueIndFields P hnull hundef hbool hnum hstr hbytes harr hobj hframe hfunc fields)
  | .vfunc src => hfunc src

def valueIndList (P : Value → Prop) (hnull : P .vnull) (hundef : P .vundef)
    (hbool : ∀ b, P (.vbool b)) (hnum : ∀ n, P (.vnum n)) (hstr : ∀ s, P (.vstr s))
    (hbytes : ∀ bs, P (.vbytes bs))
    (harr : ∀ tup items, (∀ v ∈ items, P v) → P (.varr tup items))
    (hobj : ∀ fields, (∀ kv ∈ fields, P kv.2) → P (.vobj fields))
    (hframe : ∀ t fields, (∀ kv ∈ fields, P kv.2) → P (.vframe t fields))
    (hfunc : ∀ src, P (.vfunc src)) : ∀ l : List Value, ∀ v ∈ l, P v
  | [], _, h => absurd h (List.not_mem_nil _)
  | x :: rest, v, h => by
    rcases List.mem_cons.mp h with h' | h'
    · exact h' ▸ valueInd P hnull hundef hbool hnum hstr hbytes harr hobj hframe hfunc x
    · exact valueIndList P hnull hundef hbool hnum hstr hbytes harr hobj hframe hfunc rest v h'

def valueIndFields (P : Value → Prop) (hnull : P .vnull) (hundef : P .vundef)
    (hbool : ∀ b, P (.vbool b)) (hnum : ∀ n, P (.vnum n)) (hstr : ∀ s, P (.vstr s))
    (hbytes : ∀ bs, P (.vbytes bs))
    (harr : ∀ tup items, (∀ v ∈ items, P v) → P (.varr tup items))
    (hobj : ∀ fields, (∀ kv ∈ fields, P kv.2) → P (.vobj fields))
    (hframe : ∀ t fields, (∀ kv ∈ fields, P kv.2) → P (.vframe t fields))
    (hfunc : ∀ src, P (.vfunc src)) : ∀ l : List (String × Value), ∀ kv ∈ l, P kv.2
  | [], _, h => absurd h (List.not_mem_nil _)
  | (k0, v0) :: rest, kv, h => by
    rcases List.mem_cons.mp h with h' | h'
    · exact h' ▸ valueInd P hnull hundef hbool hnum hstr hbytes harr hobj hframe hfunc v0
    · exact valueIndFields P hnull hundef hbool hnum hstr hbytes harr hobj hframe hfunc rest kv h'

end

/-! ## Lemmas: decimal digits -/

theorem digitChar_toNat {d : Nat} (h : d < 10) : (digitChar d).toNat = 48 + d := by
  interval_cases d <;> rfl

theorem isDigitCh_digitChar {d : Nat} (h : d < 10) : isDigitCh (digitChar d) = true := by
  interval_cases d <;> rfl

theorem digitVal_digitChar {d : Nat} (h : d < 10) : digitVal (digitChar d) = d := by
  interval_cases d <;> rfl

theorem natDigitsRev_digits (fuel n : Nat) :
    ∀ c ∈ natDigitsRev fuel n, isDigitCh c = true := by
  induction fuel generalizing n with
  | zero => simp [natDigitsRev]
  | succ fuel ih =>
    by_cases hn : n < 10
    · simpa [natDigitsRev, hn] using isDigitCh_digitChar hn
    · simpa [natDigitsRev, hn] using
        And.intro (isDigitCh_digitChar (show n % 10 < 10 by omega)) (ih (n / 10))

theorem digitsToNat_append (xs ys : List Char) (acc : Nat) :
    digitsToNat acc (xs ++ ys) = digitsToNat (digitsToNat acc xs) ys := by
  induction xs generalizing acc with
  | nil => rfl
  | cons c cs ih =>
    rw [List.cons_append]
    show digitsToNat (acc * 10 + digitVal c) (cs ++ ys) = _
    rw [ih]
    rfl

theorem digitsToNat_natDigitsRev {fuel n : Nat} (h : n < fuel) (acc : Nat) :
    digitsToNat acc (natDigitsRev fuel n).reverse =
      acc * 10 ^ (natDigitsRev fuel n).length + n := by
  induction fuel generalizing n acc with
  | zero => omega
  | succ fuel ih =>
    rw [natDigitsRev]
    by_cases hn : n < 10
    · rw [if_pos hn]
      show digitsToNat acc [digitChar n] = _
      show digitsToNat (acc * 10 + digitVal (digitChar n)) [] = _
      rw [digitVal_digitChar hn]
      show acc * 10 + n = acc * 10 ^ 1 + n
      rw [pow_one]
    · rw [if_neg hn]
      have h10 : n / 10 < fuel := by omega
      have hmod : n % 10 < 10 := by omega
      rw [List.reverse_cons, digitsToNat_append, ih h10]
      show digitsToNat (acc * 10 ^ (natDigitsRev fuel (n / 10)).length + n / 10)
          [digitChar (n % 10)] = _
      show (acc * 10 ^ (natDigitsRev fuel (n / 10)).length + n / 10) * 10 +
          digitVal (digitChar (n % 10)) = _
      rw [digitVal_digitChar hmod, List.length_cons, pow_succ]
      ring_nf
      omega

theorem digitsToNat_natChars (n : Nat) : digitsToNat 0 (natChars n) = n := by
  simpa [natChars] using digitsToNat_natDigitsRev (show n < n + 1 by omega) 0

theorem natChars_digits (n : Nat) : ∀ c ∈ natChars n, isDigitCh c = true := by
  intro c hc
  exact natDigitsRev_digits (n + 1) n c (List.mem_reverse.mp hc)

theorem natChars_ne_nil (n : Nat) : natChars n ≠ [] := by
  unfold natChars natDigitsRev
  by_cases hn : n < 10 <;> simp [hn]

theorem takeDigits_append {ds rest : List Char} (hds : ∀ c ∈ ds, isDigitCh c = true)
    (hrest : NumOk rest) : takeDigits (ds ++ rest) = (ds, rest) := by
  induction ds with
  | nil =>
    cases rest with
    | nil => rfl
    | cons c rs => simp [takeDigits, hrest c rfl]
  | cons c cs ih =>
    simp [takeDigits, hds c (List.mem_cons_self c cs),
      ih (fun c' hc' => hds c' (List.mem_cons_of_mem c hc'))]

theorem parseNat_natChars (n : Nat) (rest : List Char) (hrest : NumOk rest) :
    parseNat (natChars n ++ rest) = some (n, rest) := by
  obtain ⟨d, ds, hd⟩ : ∃ d ds, natChars n = d :: ds := by
    cases h : natChars n with
    | nil => exact absurd h (natChars_ne_nil n)
    | cons d ds => exact ⟨d, ds, rfl⟩
  have htd := takeDigits_append (natChars_digits n) hrest
  rw [hd] at htd
  simp only [List.cons_append] at htd
  unfold parseNat
  rw [hd]
  simp only [List.cons_append, htd]
  rw [← hd, digitsToNat_natChars]

/-! ## Lemmas: base64 round trip -/

theorem sextetOf_b64Char : ∀ n, n < 64 → sextetOf (b64Char n) = some n := by decide

theorem b64Char_ne_pad : ∀ n, n < 64 → b64Char n ≠ '=' := by decide

theorem b64EncodeBytes_ne_nil : ∀ bs : List Nat, bs ≠ [] → b64EncodeBytes bs ≠ [] := by
  intro bs h
  match bs with
  | [b0] => simp [b64EncodeBytes]
  | [b0, b1] => simp [b64EncodeBytes]
  | b0 :: b1 :: b2 :: rest => simp [b64EncodeBytes]

theorem atobChars_b64EncodeBytes :
    ∀ bs : List Nat, (∀ b ∈ bs, b < 256) → atobChars (b64EncodeBytes bs) = some bs
  | [], _ => rfl
  | [b0], h => by
    have hb0 : b0 < 256 := h b0 (by simp)
    have h0 : b0 / 4 < 64 := by omega
    have h1 : b0 % 4 * 16 < 64 := by omega
    simp [b64EncodeBytes, atobChars, sextetOf_b64Char _ h0, sextetOf_b64Char _ h1]
    omega
  | [b0, b1], h => by
    have hb0 : b0 < 256 := h b0 (by simp)
    have hb1 : b1 < 256 := h b1 (by simp)
    have h0 : b0 / 4 < 64 := by omega
    have h1 : b0 % 4 * 16 + b1 / 16 < 64 := by omega
    have h2 : b1 % 16 * 4 < 64 := by omega
    simp [b64EncodeBytes, atobChars, sextetOf_b64Char _ h0, sextetOf_b64Char _ h1,
      sextetOf_b64Char _ h2, b64Char_ne_pad _ h2]
    constructor <;> omega
  | b0 :: b1 :: b2 :: rest, h => by
    have hb0 : b0 < 256 := h b0 (by simp)
    have hb1 : b1 < 256 := h b1 (by simp)
    have hb2 : b2 < 256 := h b2 (by simp)
    have h0 : b0 / 4 < 64 := by omega
    have h1 : b0 % 4 * 16 + b1 / 16 < 64 := by omega
    have h2 : b1 % 16 * 4 + b2 / 64 < 64 := by omega
    have h3 : b2 % 64 < 64 := by omega
    have hrec := atobChars_b64EncodeBytes rest (fun b hb => h b (by simp [hb]))
    cases hrest : rest with
    | nil =>
      subst hrest
      simp [b64EncodeBytes, atobChars, sextetOf_b64Char _ h0, sextetOf_b64Char _ h1,
        sextetOf_b64Char _ h2, sextetOf_b64Char _ h3, b64Char_ne_pad _ h2,
        b64Char_ne_pad _ h3]
      refine ⟨by omega, by omega, by omega⟩
    | cons x xs =>
      have hne : b64EncodeBytes rest ≠ [] := hrest ▸ b64EncodeBytes_ne_nil _ (by simp [hrest])
      rw [hrest] at hrec hne
      simp [b64EncodeBytes, atobChars, List.isEmpty_iff, hne,
        sextetOf_b64Char _ h0, sextetOf_b64Char _ h1, sextetOf_b64Char _ h2,
        sextetOf_b64Char _ h3, hrec]
      refine ⟨by omega, by omega, by omega⟩

theorem atob_btoa (bs : List Nat) (h : ∀ b ∈ bs, b < 256) : atob (btoa bs) = .ok bs := by
  simp [atob, btoa, atobChars_b64EncodeBytes bs h]

/-! ## Lemmas: the parser inverts the stringifier -/

theorem string_mk_data (s : String) : String.mk s.data = s := rfl

theorem parseStrBody_quote (cs rest : List Char) :
    parseStrBody (quoteChars cs ++ '"' :: rest) = some (cs, rest) := by
  induction cs with
  | nil =>
    show parseStrBody ('"' :: rest) = _
    rw [parseStrBody.eq_def]
    simp
  | cons c cs ih =>
    show parseStrBody ((quoteChar c ++ quoteChars cs) ++ '"' :: rest) = _
    by_cases h1 : c = '"'
    · subst h1
      show parseStrBody ('\\' :: '"' :: (quoteChars cs ++ '"' :: rest)) = _
      rw [parseStrBody.eq_def]
      simp [ih]
    · by_cases h2 : c = '\\'
      · subst h2
        show parseStrBody ('\\' :: '\\' :: (quoteChars cs ++ '"' :: rest)) = _
        rw [parseStrBody.eq_def]
        simp [ih]
      · rw [show quoteChar c = [c] from by simp [quoteChar, h1, h2]]
        show parseStrBody (c :: (quoteChars cs ++ '"' :: rest)) = _
        rw [parseStrBody.eq_def]
        simp [h1, h2, ih]

theorem digit_not_special {c : Char} (h : isDigitCh c = true) :
    c ≠ 'n' ∧ c ≠ 't' ∧ c ≠ 'f' ∧ c ≠ '"' ∧ c ≠ '-' ∧ c ≠ '[' ∧ c ≠ '\x7b' ∧ c ≠ ']' ∧
      c ≠ '\x7d' ∧ c ≠ ',' := by
  refine ⟨?_, ?_, ?_, ?_, ?_, ?_, ?_, ?_, ?_, ?_⟩ <;> rintro rfl <;> exact absurd h (by decide)

theorem parseVal_natChars (g n : Nat) (rest : List Char) (hrest : NumOk rest) :
    parseVal (g + 1) (natChars n ++ rest) = some (.num (n : Int), rest) := by
  obtain ⟨d, ds, hd⟩ : ∃ d ds, natChars n = d :: ds := by
    cases h : natChars n with
    | nil => exact absurd h (natChars_ne_nil n)
    | cons d ds => exact ⟨d, ds, rfl⟩
  have hdig : isDigitCh d = true := natChars_digits n d (hd ▸ List.mem_cons_self d ds)
  obtain ⟨h1, h2, h3, h4, h5, h6, h7, _, _, _⟩ := digit_not_special hdig
  have hpn : parseNat (d :: (ds ++ rest)) = some (n, rest) := by
    have := parseNat_natChars n rest hrest
    rw [hd] at this
    simpa using this
  rw [hd, List.cons_append, parseVal.eq_def]
  simp [h1, h2, h3, h4, h5, h6, h7, hdig, hpn]

theorem parseVal_int (g : Nat) (i : Int) (rest : List Char) (hrest : NumOk rest) :
    parseVal (g + 1) (intChars i ++ rest) = some (.num i, rest) := by
  cases i with
  | ofNat n => exact parseVal_natChars g n rest hrest
  | negSucc m =>
    show parseVal (g + 1) ('-' :: (natChars (m + 1) ++ rest)) = _
    have hpn : parseNat (natChars (m + 1) ++ rest) = some (m + 1, rest) :=
      parseNat_natChars (m + 1) rest hrest
    rw [parseVal.eq_def]
    simp [hpn]
    rw [Int.negSucc_eq]
    ring

theorem parseVal_str (g : Nat) (s : String) (rest : List Char) :
    parseVal (g + 1) (quoteString s ++ rest) = some (.str s, rest) := by
  have harg : quoteString s ++ rest = '"' :: (quoteChars s.data ++ '"' :: rest) := by
    simp [quoteString]
  rw [harg, parseVal.eq_def]
  simp [parseStrBody_quote, string_mk_data]

theorem parseVal_null (g : Nat) (rest : List Char) :
    parseVal (g + 1) (jsonChars .null ++ rest) = some (.null, rest) := rfl

theorem parseVal_bool (g : Nat) (b : Bool) (rest : List Char) :
    parseVal (g + 1) (jsonChars (.bool b) ++ rest) = some (.bool b, rest) := by
  cases b <;> rfl

theorem jweight_pos (j : Json) : 1 ≤ jweight j := by
  cases j <;> simp [jweight] <;> omega

theorem jsonChars_head_shape (j : Json) :
    ∃ c cs, jsonChars j = c :: cs ∧
      (c = 'n' ∨ c = 't' ∨ c = 'f' ∨ c = '"' ∨ c = '-' ∨ c = '[' ∨ c = '\x7b' ∨
        isDigitCh c = true) := by
  cases j with
  | null => exact ⟨'n', _, rfl, by tauto⟩
  | bool b =>
    cases b
    · exact ⟨'f', _, rfl, by tauto⟩
    · exact ⟨'t', _, rfl, by tauto⟩
  | num i =>
    cases i with
    | ofNat n =>
      obtain ⟨d, ds, hd⟩ : ∃ d ds, natChars n = d :: ds := by
        cases h : natChars n with
        | nil => exact absurd h (natChars_ne_nil n)
        | cons d ds => exact ⟨d, ds, rfl⟩
      have hdig : isDigitCh d = true := natChars_digits n d (hd ▸ List.mem_cons_self d ds)
      exact ⟨d, ds, hd, by tauto⟩
    | negSucc m => exact ⟨'-', _, rfl, by tauto⟩
  | str s => exact ⟨'"', _, rfl, by tauto⟩
  | arr items => exact ⟨'[', _, rfl, by tauto⟩
  | obj fields => exact ⟨'\x7b', _, rfl, by tauto⟩

theorem jsonChars_head_ne_delim (j : Json) (more : List Char) :
    (jsonChars j ++ more).head? ≠ some ']' ∧ (jsonChars j ++ more).head? ≠ some '\x7d' := by
  obtain ⟨c, cs, hj, hc⟩ := jsonChars_head_shape j
  rw [hj]
  have hne : c ≠ ']' ∧ c ≠ '\x7d' := by
    rcases hc with h | h | h | h | h | h | h | h
    all_goals first
      | (subst h; exact ⟨by decide, by decide⟩)
      | (constructor <;> rintro rfl <;> exact absurd h (by decide))
  simp [hne.1, hne.2]

theorem numOk_cons {c : Char} {cs : List Char} (h : isDigitCh c = false) : NumOk (c :: cs) := by
  intro c' hc'
  simp only [List.head?_cons, Option.some.injEq] at hc'
  exact hc' ▸ h

theorem numOk_nil : NumOk [] := by
  intro c hc
  simp at hc

/-- The parser inverts the stringifier, at any sufficient fuel. -/
theorem parse_rt (fuel : Nat) :
    (∀ j rest, jweight j ≤ fuel → NumOk rest →
      parseVal fuel (jsonChars j ++ rest) = some (j, rest)) ∧
    (∀ items rest, items ≠ [] → jweightItems items ≤ fuel →
      parseItemsRest fuel (jsonItemsChars items ++ ']' :: rest) = some (items, rest)) ∧
    (∀ fields rest, fields ≠ [] → jweightFields fields ≤ fuel →
      parseFieldsRest fuel (jsonFieldsChars fields ++ '\x7d' :: rest) = some (fields, rest)) := by
  induction fuel using Nat.strong_induction_on with
  | _ fuel ih =>
  rcases fuel with _ | g
  · refine ⟨?_, ?_, ?_⟩
    · intro j rest hw _
      have := jweight_pos j
      omega
    · intro items rest hne hw
      cases items with
      | nil => exact absurd rfl hne
      | cons j0 more => simp [jweightItems] at hw
    · intro fields rest hne hw
      cases fields with
      | nil => exact absurd rfl hne
      | cons kv more =>
        obtain ⟨k, v⟩ := kv
        simp [jweightFields] at hw
  refine ⟨?_, ?_, ?_⟩
  · -- values
    intro j rest hw hrest
    cases j with
    | null => exact parseVal_null g rest
    | bool b => exact parseVal_bool g b rest
    | num i =>
      rw [show jsonChars (.num i) = intChars i from by simp [jsonChars]]
      exact parseVal_int g i rest hrest
    | str s =>
      rw [show jsonChars (.str s) = quoteString s from by simp [jsonChars]]
      exact parseVal_str g s rest
    | arr items =>
      obtain ⟨g', rfl⟩ : ∃ g', g = g' + 1 := by
        have := jweight_pos (Json.arr items)
        simp [jweight] at hw
        exact ⟨g - 1, by omega⟩
      have harg : jsonChars (.arr items) ++ rest =
          '[' :: (jsonItemsChars items ++ ']' :: rest) := by
        simp [jsonChars]
      cases items with
      | nil =>
        rw [harg, parseVal.eq_def]
        simp [parseArrItems.eq_def, jsonItemsChars]
      | cons j0 more =>
        obtain ⟨c, cs2, hj, hc2⟩ := jsonChars_head_shape j0
        have hcne : c ≠ ']' := by
          rcases hc2 with h | h | h | h | h | h | h | h
          all_goals first
            | (subst h; decide)
            | (rintro rfl; exact absurd h (by decide))
        have hfrm : jsonItemsChars (j0 :: more) = c :: (cs2 ++ jsonItemsMore more) := by
          simp [jsonItemsChars, hj]
        have hcond : ¬((jsonItemsChars (j0 :: more)).head? = some ']' ∨
            jsonItemsChars (j0 :: more) = []) := by
          rw [hfrm]
          simp [hcne]
        have hrec := (ih g' (by omega)).2.1 (j0 :: more) rest (by simp)
          (by simp [jweight, jweightItems] at hw ⊢; omega)
        rw [harg, parseVal.eq_def]
        simp [parseArrItems.eq_def, hcond, hrec]
    | obj fields =>
      obtain ⟨g', rfl⟩ : ∃ g', g = g' + 1 := by
        simp [jweight] at hw
        exact ⟨g - 1, by omega⟩
      have harg : jsonChars (.obj fields) ++ rest =
          '\x7b' :: (jsonFieldsChars fields ++ '\x7d' :: rest) := by
        simp [jsonChars]
      cases fields with
      | nil =>
        rw [harg, parseVal.eq_def]
        simp [parseObjFields.eq_def, jsonFieldsChars]
      | cons kv more =>
        obtain ⟨k, v⟩ := kv
        have hfrm : jsonFieldsChars ((k, v) :: more) =
            '"' :: (quoteChars k.data ++
              '"' :: ':' :: (jsonChars v ++ jsonFieldsMore more)) := by
          simp [jsonFieldsChars, quoteString]
        have hcond : ¬((jsonFieldsChars ((k, v) :: more)).head? = some '\x7d' ∨
            jsonFieldsChars ((k, v) :: more) = []) := by
          rw [hfrm]
          simp
        have hrec := (ih g' (by omega)).2.2 ((k, v) :: more) rest (by simp)
          (by simp [jweight, jweightFields] at hw ⊢; omega)
        rw [harg, parseVal.eq_def]
        simp [parseObjFields.eq_def, hcond, hrec]
  · -- array items
    intro items rest hne hw
    cases items with
    | nil => exact absurd rfl hne
    | cons j0 more =>
      simp only [jweightItems] at hw
      cases more with
      | nil =>
        have harg : jsonItemsChars [j0] ++ ']' :: rest = jsonChars j0 ++ (']' :: rest) := by
          simp [jsonItemsChars, jsonItemsMore]
        have hpv := (ih g (by omega)).1 j0 (']' :: rest) (by omega) (numOk_cons (by decide))
        rw [parseItemsRest.eq_def, harg]
        simp [hpv]
      | cons m ms =>
        have harg : jsonItemsChars (j0 :: m :: ms) ++ ']' :: rest =
            jsonChars j0 ++ (',' :: (jsonItemsChars (m :: ms) ++ ']' :: rest)) := by
          simp [jsonItemsChars, jsonItemsMore]
        have hpv := (ih g (by omega)).1 j0 (',' :: (jsonItemsChars (m :: ms) ++ ']' :: rest))
          (by omega) (numOk_cons (by decide))
        have hrec := (ih g (by omega)).2.1 (m :: ms) rest (by simp)
          (by simp [jweightItems] at hw ⊢; omega)
        rw [parseItemsRest.eq_def, harg]
        simp [hpv, hrec]
  · -- object members
    intro fields rest hne hw
    cases fields with
    | nil => exact absurd rfl hne
    | cons kv more =>
      obtain ⟨k, v⟩ := kv
      simp only [jweightFields] at hw
      cases more with
      | nil =>
        have harg : jsonFieldsChars [(k, v)] ++ '\x7d' :: rest =
            '"' :: (quoteChars k.data ++
              '"' :: ':' :: (jsonChars v ++ ('\x7d' :: rest))) := by
          simp [jsonFieldsChars, jsonFieldsMore, quoteString]
        have hsb := parseStrBody_quote k.data (':' :: (jsonChars v ++ ('\x7d' :: rest)))
        have hpv := (ih g (by omega)).1 v ('\x7d' :: rest) (by omega) (numOk_cons (by decide))
        rw [parseFieldsRest.eq_def, harg]
        simp [hsb, hpv, string_mk_data]
      | cons kv2 ms =>
        obtain ⟨k2, v2⟩ := kv2
        have harg : jsonFieldsChars ((k, v) :: (k2, v2) :: ms) ++ '\x7d' :: rest =
            '"' :: (quoteChars k.data ++ '"' :: ':' ::
              (jsonChars v ++
                (',' :: (jsonFieldsChars ((k2, v2) :: ms) ++ '\x7d' :: rest)))) := by
          simp [jsonFieldsChars, jsonFieldsMore, quoteString]
        have hsb := parseStrBody_quote k.data (':' ::
          (jsonChars v ++ (',' :: (jsonFieldsChars ((k2, v2) :: ms) ++ '\x7d' :: rest))))
        have hpv := (ih g (by omega)).1 v
          (',' :: (jsonFieldsChars ((k2, v2) :: ms) ++ '\x7d' :: rest))
          (by omega) (numOk_cons (by decide))
        have hrec := (ih g (by omega)).2.2 ((k2, v2) :: ms) rest (by simp)
          (by simp [jweightFields] at hw ⊢; omega)
        rw [parseFieldsRest.eq_def, harg]
        simp [hsb, hpv, hrec, string_mk_data]

theorem natChars_length_pos (n : Nat) : 1 ≤ (natChars n).length := by
  cases h : natChars n with
  | nil => exact absurd h (natChars_ne_nil n)
  | cons c cs => simp

theorem jweight_le_chars (j : Json) : jweight j ≤ 2 * (jsonChars j).length := by
  induction j using jsonInd with
  | hnull => simp [jweight, jsonChars]
  | hbool b => cases b <;> simp [jweight, jsonChars]
  | hnum n =>
    have h1 : 1 ≤ (intChars n).length := by
      cases n with
      | ofNat m => exact natChars_length_pos m
      | negSucc m => simp [intChars]
    simp only [jweight, show jsonChars (.num n) = intChars n from by simp [jsonChars]]
    omega
  | hstr s =>
    simp [jweight, show jsonChars (.str s) = quoteString s from by simp [jsonChars],
      quoteString]
    omega
  | harr items ihm =>
    have hbody : jweightItems items ≤ 2 * (jsonItemsChars items).length + 1 := by
      cases items with
      | nil => simp [jweightItems, jsonItemsChars]
      | cons j0 more =>
        have hmore : ∀ ms : List Json, (∀ j ∈ ms, jweight j ≤ 2 * (jsonChars j).length) →
            jweightItems ms ≤ 2 * (jsonItemsMore ms).length := by
          intro ms hms
          induction ms with
          | nil => simp [jweightItems, jsonItemsMore]
          | cons m ms2 ih2 =>
            have hm := hms m (by simp)
            have hms2 := ih2 (fun j hj => hms j (by simp [hj]))
            simp only [jweightItems, jsonItemsMore] at *
            simp only [List.length_cons, List.length_append]
            omega
        have hj0 := ihm j0 (by simp)
        have hm := hmore more (fun j hj => ihm j (by simp [hj]))
        simp only [jweightItems, jsonItemsChars, List.length_append]
        omega
    have harr2 : (jsonChars (.arr items)).length = (jsonItemsChars items).length + 2 := by
      simp [jsonChars]
    simp only [jweight, harr2]
    omega
  | hobj fields ihm =>
    have hbody : jweightFields fields ≤ 2 * (jsonFieldsChars fields).length + 1 := by
      cases fields with
      | nil => simp [jweightFields, jsonFieldsChars]
      | cons kv more =>
        obtain ⟨k, v⟩ := kv
        have hmore : ∀ ms : List (String × Json),
            (∀ kv2 ∈ ms, jweight kv2.2 ≤ 2 * (jsonChars kv2.2).length) →
            jweightFields ms ≤ 2 * (jsonFieldsMore ms).length := by
          intro ms hms
          induction ms with
          | nil => simp [jweightFields, jsonFieldsMore]
          | cons kv2 ms2 ih2 =>
            obtain ⟨k2, v2⟩ := kv2
            have hv2 := hms (k2, v2) (by simp)
            have hms2 := ih2 (fun kv3 h3 => hms kv3 (by simp [h3]))
            have hq : 2 ≤ (quoteString k2).length := by simp [quoteString]
            simp only [jweightFields, jsonFieldsMore] at *
            simp only [List.length_cons, List.length_append]
            omega
        have hv := ihm (k, v) (by simp)
        have hm := hmore more (fun kv2 h2 => ihm kv2 (by simp [h2]))
        have hq : 2 ≤ (quoteString k).length := by simp [quoteString]
        simp only [jweightFields, jsonFieldsChars, List.length_append, List.length_cons] at *
        omega
    have hobj2 : (jsonChars (.obj fields)).length = (jsonFieldsChars fields).length + 2 := by
      simp [jsonChars]
    simp only [jweight, hobj2]
    omega

/-- The host parse inverts the host stringify. -/
theorem jsonParse_jsonStr (j : Json) : jsonParse (jsonStr j) = .ok j := by
  have hlen : (jsonStr j).length = (jsonChars j).length := rfl
  have hfuel : jweight j ≤ 2 * (jsonStr j).length + 2 := by
    have := jweight_le_chars j
    omega
  have hp := (parse_rt (2 * (jsonStr j).length + 2)).1 j [] hfuel numOk_nil
  rw [List.append_nil] at hp
  have harg : (jsonStr j).data = jsonChars j := rfl
  rw [jsonParse, harg, hp]

/-! ## Lemmas: stringify/parse is the identity on JSON-compatible values -/

theorem jsValueOfJson_toJson {v : Value} (h : jsonCompatible v = true) :
    (toJson v).map jsValueOfJson = some v := by
  induction v using valueInd with
  | hnull => rfl
  | hundef => simp [jsonCompatible] at h
  | hbool b => simp [toJson, jsValueOfJson]
  | hnum n => simp [toJson, jsValueOfJson]
  | hstr s => simp [toJson, jsValueOfJson]
  | hbytes bs => simp [jsonCompatible] at h
  | harr tup items ihm =>
    simp only [jsonCompatible, Bool.and_eq_true, Bool.not_eq_true'] at h
    obtain ⟨htup, hlist⟩ := h
    subst htup
    have hl : jsListOfJson (toJsonItems items) = items := by
      induction items with
      | nil => rfl
      | cons v rest ih2 =>
        simp only [jsonCompatibleList, Bool.and_eq_true] at hlist
        have hv := ihm v (by simp) hlist.1
        obtain ⟨jv, hjv, hjv2⟩ : ∃ jv, toJson v = some jv ∧ jsValueOfJson jv = v := by
          cases hj : toJson v with
          | none => rw [hj] at hv; simp at hv
          | some jv => rw [hj] at hv; simp at hv; exact ⟨jv, rfl, hv⟩
        have hrest := ih2 (fun w hw c => ihm w (by simp [hw]) c) hlist.2
        simp [toJsonItems, jsListOfJson, hjv, hjv2, hrest]
    simp [toJson, jsValueOfJson, hl]
  | hobj fields ihm =>
    simp only [jsonCompatible] at h
    have hl : jsFieldsOfJson (toJsonFields fields) = fields := by
      induction fields with
      | nil => rfl
      | cons kv rest ih2 =>
        obtain ⟨k, v⟩ := kv
        simp only [jsonCompatibleFields, Bool.and_eq_true] at h
        have hv := ihm (k, v) (by simp) h.1
        obtain ⟨jv, hjv, hjv2⟩ : ∃ jv, toJson v = some jv ∧ jsValueOfJson jv = v := by
          cases hj : toJson v with
          | none => rw [hj] at hv; simp at hv
          | some jv => rw [hj] at hv; simp at hv; exact ⟨jv, rfl, hv⟩
        have hrest := ih2 (fun kv2 h2 c => ihm kv2 (by simp [h2]) c) h.2
        simp [toJsonFields, jsFieldsOfJson, hjv, hjv2, hrest]
    simp [toJson, jsValueOfJson, hl]
  | hframe t fields ihm => simp [jsonCompatible] at h
  | hfunc src => simp [jsonCompatible] at h

/-! ## Lemmas: the value round trip -/

theorem serializeObjFields_hasKey (fields : List (String × Value)) (k : String) :
    hasKeyStr (serializeObjFields fields) k = hasKeyStr fields k := by
  induction fields with
  | nil => rfl
  | cons kv rest ih =>
    obtain ⟨k0, v0⟩ := kv
    by_cases hk : k0 = k
    · simp [serializeObjFields, hasKeyStr, lookupStr, hk]
    · simp [serializeObjFields, hasKeyStr, lookupStr, hk]
      simpa [hasKeyStr] using ih

/-- Below the top level (no markers), a wire round trip of a frameless
value erases blobs to base64 text and drops tuple flags, and otherwise
reproduces the value. -/
theorem deserializeValue_serializeValue {v : Value} (h : noFrames v = true) :
    deserializeValue (serializeValue v) false false = .ok (erase v) := by
  induction v using valueInd with
  | hnull => rfl
  | hundef => simp [noFrames] at h
  | hbool b => simp [serializeValue, deserializeValue, erase]
  | hnum n => simp [serializeValue, deserializeValue, erase]
  | hstr s => simp [serializeValue, deserializeValue, erase]
  | hbytes bs => simp [serializeValue, deserializeValue, erase]
  | harr tup items ihm =>
    simp only [noFrames] at h
    have hl : deserializeItems (serializeItems items) = .ok (eraseList items) := by
      induction items with
      | nil => rfl
      | cons v rest ih2 =>
        simp only [noFramesList, Bool.and_eq_true] at h
        have hv := ihm v (by simp) h.1
        have hrest := ih2 (fun w hw c => ihm w (by simp [hw]) c) h.2
        simp [serializeItems, deserializeItems, hv, hrest, eraseList]
    simp [serializeValue, deserializeValue, hl, erase]
  | hobj fields ihm =>
    simp only [noFrames, Bool.and_eq_true, Bool.not_eq_true'] at h
    obtain ⟨hkey, hfl⟩ := h
    have hl : ∀ fs : List (String × Value),
        (∀ kv ∈ fs, noFrames kv.2 = true →
          deserializeValue (serializeValue kv.2) false false = .ok (erase kv.2)) →
        noFramesFields fs = true →
        deserializeFields (serializeObjFields fs) = .ok (eraseFields fs) := by
      intro fs
      induction fs with
      | nil => intro _ _; rfl
      | cons kv rest ih2 =>
        obtain ⟨k, v⟩ := kv
        intro hmem hfl2
        simp only [noFramesFields, Bool.and_eq_true] at hfl2
        have hv := hmem (k, v) (by simp) hfl2.1
        have hrest := ih2 (fun kv2 h2 c => hmem kv2 (by simp [h2]) c) hfl2.2
        simp [serializeObjFields, deserializeFields, hv, hrest, eraseFields]
    have hl2 := hl fields ihm hfl
    rw [show serializeValue (.vobj fields) = .vobj (serializeObjFields fields) from by
      simp [serializeValue, hkey]]
    rw [show erase (.vobj fields) = .vobj (eraseFields fields) from by simp [erase]]
    rw [deserializeValue.eq_def]
    simp [serializeObjFields_hasKey, hkey, hl2]
  | hframe t fields ihm => simp [noFrames] at h
  | hfunc src => simp [noFrames] at h

/-- At the top level of a frame field, the sibling markers restore
blob-ness and tuple-ness exactly. -/
theorem deserialize_serialize_top {v : Value} (h : noFrames v = true) :
    deserializeValue (serializeValue v) (isBytesV v) (isTupleV v) = .ok (topPreserve v) := by
  cases v with
  | vbytes bs =>
    have hbs : ∀ b ∈ bs, b < 256 := by
      simpa [noFrames, List.all_eq_true] using h
    simp [serializeValue, deserializeValue, isBytesV, isTupleV, topPreserve,
      atob_btoa bs hbs]
  | varr tup items =>
    have hl : deserializeItems (serializeItems items) = .ok (eraseList items) := by
      have := deserializeValue_serializeValue (v := .varr false items)
        (by simpa [noFrames] using h)
      simp only [serializeValue, deserializeValue, erase] at this
      cases hd : deserializeItems (serializeItems items) with
      | error e => rw [hd] at this; simp at this
      | ok l => rw [hd] at this; simp at this; simp [this]
    cases tup <;> simp [serializeValue, deserializeValue, isBytesV, isTupleV,
      topPreserve, hl]
  | vnull => exact deserializeValue_serializeValue h
  | vundef => exact deserializeValue_serializeValue h
  | vbool b => exact deserializeValue_serializeValue h
  | vnum n => exact deserializeValue_serializeValue h
  | vstr s => exact deserializeValue_serializeValue h
  | vobj fields => exact deserializeValue_serializeValue h
  | vframe t fields => exact deserializeValue_serializeValue h
  | vfunc src => exact deserializeValue_serializeValue h

/-! ## Lemmas: deep-safe and top-safe values -/

theorem deepSafe_parts {v : Value} (h : deepSafe v = true) :
    serializeValue v = v ∧ noFrames v = true ∧ jsonCompatible v = true ∧ erase v = v := by
  induction v using valueInd with
  | hnull => exact ⟨rfl, rfl, rfl, rfl⟩
  | hundef => simp [deepSafe] at h
  | hbool b => exact ⟨by simp [serializeValue], rfl, rfl, by simp [erase]⟩
  | hnum n => exact ⟨by simp [serializeValue], rfl, rfl, by simp [erase]⟩
  | hstr s => exact ⟨by simp [serializeValue], rfl, rfl, by simp [erase]⟩
  | hbytes bs => simp [deepSafe] at h
  | harr tup items ihm =>
    simp only [deepSafe, Bool.and_eq_true, Bool.not_eq_true'] at h
    obtain ⟨htup, hlist⟩ := h
    subst htup
    have hl : serializeItems items = items ∧ noFramesList items = true ∧
        jsonCompatibleList items = true ∧ eraseList items = items := by
      induction items with
      | nil => exact ⟨rfl, rfl, rfl, rfl⟩
      | cons v rest ih2 =>
        simp only [deepSafeList, Bool.and_eq_true] at hlist
        obtain ⟨h1, h2, h3, h4⟩ := ihm v (by simp) hlist.1
        obtain ⟨g1, g2, g3, g4⟩ := ih2 (fun w hw c => ihm w (by simp [hw]) c) hlist.2
        exact ⟨by simp [serializeItems, h1, g1], by simp [noFramesList, h2, g2],
          by simp [jsonCompatibleList, h3, g3], by simp [eraseList, h4, g4]⟩
    exact ⟨by simp [serializeValue, hl.1], by simp [noFrames, hl.2.1],
      by simp [jsonCompatible, hl.2.2.1], by simp [erase, hl.2.2.2]⟩
  | hobj fields ihm => simp [deepSafe] at h
  | hframe t fields ihm => simp [deepSafe] at h
  | hfunc src => simp [deepSafe] at h

theorem deepSafeList_parts {items : List Value} (h : deepSafeList items = true) :
    serializeItems items = items ∧ noFramesList items = true ∧
      jsonCompatibleList items = true ∧ eraseList items = items := by
  induction items with
  | nil => exact ⟨rfl, rfl, rfl, rfl⟩
  | cons v rest ih =>
    simp only [deepSafeList, Bool.and_eq_true] at h
    obtain ⟨h1, h2, h3, h4⟩ := deepSafe_parts h.1
    obtain ⟨g1, g2, g3, g4⟩ := ih h.2
    exact ⟨by simp [serializeItems, h1, g1], by simp [noFramesList, h2, g2],
      by simp [jsonCompatibleList, h3, g3], by simp [eraseList, h4, g4]⟩

theorem topSafe_parts {v : Value} (h : topSafe v = true) :
    noFrames v = true ∧ jsonCompatible (serializeValue v) = true ∧ topPreserve v = v := by
  cases v with
  | vbytes bs =>
    refine ⟨by simpa [topSafe, noFrames] using h, ?_, by simp [topPreserve]⟩
    simp [serializeValue, jsonCompatible]
  | varr tup items =>
    have hds : deepSafeList items = true := by
      cases tup <;> simpa [topSafe, deepSafe] using h
    obtain ⟨g1, g2, g3, g4⟩ := deepSafeList_parts hds
    exact ⟨by simp [noFrames, g2], by simp [serializeValue, jsonCompatible, g1, g3],
      by simp [topPreserve, g4]⟩
  | vnull =>
    exact ⟨rfl, rfl, rfl⟩
  | vbool b =>
    exact ⟨rfl, by simp [serializeValue, jsonCompatible], by simp [topPreserve, erase]⟩
  | vnum n =>
    exact ⟨rfl, by simp [serializeValue, jsonCompatible], by simp [topPreserve, erase]⟩
  | vstr s =>
    exact ⟨rfl, by simp [serializeValue, jsonCompatible], by simp [topPreserve, erase]⟩
  | vundef => simp [topSafe, deepSafe] at h
  | vobj fields => simp [topSafe, deepSafe] at h
  | vframe t fields => simp [topSafe, deepSafe] at h
  | vfunc src => simp [topSafe, deepSafe] at h

/-! ## Lemmas: marker keys and dictionary lookups -/

theorem stringDataInj {s t : String} (h : s.data = t.data) : s = t := by
  cases s
  cases t
  exact congrArg String.mk h

theorem stringDataAppend (s t : String) : (s ++ t).data = s.data ++ t.data := rfl

theorem markerBytesKey_data (k : String) :
    (markerBytesKey k).data = '_' :: '_' :: (k.data ++ "_is_bytes__".data) := by
  show (("__" ++ k) ++ "_is_bytes__").data = _
  rw [stringDataAppend, stringDataAppend, List.append_assoc]
  rfl

theorem markerTupleKey_data (k : String) :
    (markerTupleKey k).data = '_' :: '_' :: (k.data ++ "_is_tuple__".data) := by
  show (("__" ++ k) ++ "_is_tuple__").data = _
  rw [stringDataAppend, stringDataAppend, List.append_assoc]
  rfl

theorem startsU2_markerBytesKey (k : String) : startsU2 (markerBytesKey k) = true := by
  simp [startsU2, markerBytesKey_data]

theorem startsU2_markerTupleKey (k : String) : startsU2 (markerTupleKey k) = true := by
  simp [startsU2, markerTupleKey_data]

theorem markerBytesKey_length (k : String) : (markerBytesKey k).length = k.length + 13 := by
  show (markerBytesKey k).data.length = k.data.length + 13
  rw [markerBytesKey_data]
  simp [List.length_cons, List.length_append]

theorem markerTupleKey_length (k : String) : (markerTupleKey k).length = k.length + 13 := by
  show (markerTupleKey k).data.length = k.data.length + 13
  rw [markerTupleKey_data]
  simp [List.length_cons, List.length_append]

theorem markerBytesKey_inj {k1 k2 : String} (h : markerBytesKey k1 = markerBytesKey k2) :
    k1 = k2 := by
  have hd := congrArg String.data h
  rw [markerBytesKey_data, markerBytesKey_data] at hd
  simp only [List.cons.injEq, true_and] at hd
  exact stringDataInj (List.append_cancel_right hd)

theorem markerTupleKey_inj {k1 k2 : String} (h : markerTupleKey k1 = markerTupleKey k2) :
    k1 = k2 := by
  have hd := congrArg String.data h
  rw [markerTupleKey_data, markerTupleKey_data] at hd
  simp only [List.cons.injEq, true_and] at hd
  exact stringDataInj (List.append_cancel_right hd)

theorem markerBytesKey_ne_tupleKey (k1 k2 : String) : markerBytesKey k1 ≠ markerTupleKey k2 := by
  intro h
  have hd := congrArg String.data h
  rw [markerBytesKey_data, markerTupleKey_data] at hd
  simp only [List.cons.injEq, true_and] at hd
  have h2 := congrArg List.length hd
  simp only [List.length_append] at h2
  rw [show ("_is_bytes__".data).length = 11 from rfl,
    show ("_is_tuple__".data).length = 11 from rfl] at h2
  have hlen : k1.data.length = k2.data.length := by omega
  have := (List.append_inj hd hlen).2
  simp at this

theorem startsU2_ne {k target : String} (hk : startsU2 k = true) (ht : startsU2 target = false) :
    k ≠ target := by
  intro h
  rw [h, ht] at hk
  exact Bool.noConfusion hk

theorem lookupStr_none {α : Type} {l : List (String × α)} {k : String}
    (h : ∀ kv ∈ l, kv.1 ≠ k) : lookupStr l k = none := by
  induction l with
  | nil => rfl
  | cons kv rest ih =>
    obtain ⟨k0, v0⟩ := kv
    simp [lookupStr, h (k0, v0) (by simp), ih (fun kv2 h2 => h kv2 (by simp [h2]))]

theorem lookupStr_append_none {α : Type} {l1 l2 : List (String × α)} {k : String}
    (h : lookupStr l1 k = none) : lookupStr (l1 ++ l2) k = lookupStr l2 k := by
  induction l1 with
  | nil => rfl
  | cons kv rest ih =>
    obtain ⟨k0, v0⟩ := kv
    by_cases hk : k0 = k
    · simp [lookupStr, hk] at h
    · simp only [lookupStr, if_neg hk] at h
      simp [lookupStr, hk, ih h]

theorem lookup_skip_bytesMarker {k target : String} (v : Value) (l : List (String × Value))
    (hne : markerBytesKey k ≠ target) :
    lookupStr (bytesMarkerOf k v ++ l) target = lookupStr l target := by
  cases v <;> simp [bytesMarkerOf, lookupStr, hne]

theorem lookup_skip_tupleMarker {k target : String} (v : Value) (l : List (String × Value))
    (hne : markerTupleKey k ≠ target) :
    lookupStr (tupleMarkerOf k v ++ l) target = lookupStr l target := by
  cases v with
  | varr tup items => cases tup <;> simp [tupleMarkerOf, lookupStr, hne]
  | _ => rfl

theorem frameEntries_cons {k : String} {v : Value} {rest : List (String × Value)}
    (hk : (baseKeys.contains k || startsU2 k) = false) :
    frameEntries ((k, v) :: rest) =
      bytesMarkerOf k v ++ tupleMarkerOf k v ++ ((k, serializeValue v) :: frameEntries rest) := by
  rw [frameEntries.eq_def]
  simp only [Bool.or_eq_false_iff] at hk
  have hmem : k ∉ baseKeys := by simpa using hk.1
  simp [hmem, hk.2]

/-- A plain (non-underscore) key looks up through the frame entries to
the serialized value of the original field. -/
theorem lookupStr_frameEntries_plain {fields : List (String × Value)} {target : String}
    (hgood : ∀ kv ∈ fields, (baseKeys.contains kv.1 || startsU2 kv.1) = false)
    (ht : startsU2 target = false) :
    lookupStr (frameEntries fields) target = (lookupStr fields target).map serializeValue := by
  induction fields with
  | nil => rfl
  | cons kv rest ih =>
    obtain ⟨k, v⟩ := kv
    rw [frameEntries_cons (hgood (k, v) (by simp)), List.append_assoc,
      lookup_skip_bytesMarker v _ (startsU2_ne (startsU2_markerBytesKey k) ht),
      lookup_skip_tupleMarker v _ (startsU2_ne (startsU2_markerTupleKey k) ht)]
    by_cases hkt : k = target
    · simp [lookupStr, hkt]
    · simp [lookupStr, hkt, ih (fun kv2 h2 => hgood kv2 (by simp [h2]))]

/-- Short underscore-prefixed keys (such as the discriminators) never
appear among the frame entries of well-named fields. -/
theorem lookup_frameEntries_shortU2 {fields : List (String × Value)} {target : String}
    (hgood : ∀ kv ∈ fields, (baseKeys.contains kv.1 || startsU2 kv.1) = false)
    (ht2 : startsU2 target = true) (hlen : target.length < 13) :
    lookupStr (frameEntries fields) target = none := by
  induction fields with
  | nil => rfl
  | cons kv rest ih =>
    obtain ⟨k, v⟩ := kv
    have hk := hgood (k, v) (by simp)
    have hbne : markerBytesKey k ≠ target := by
      intro h
      have := markerBytesKey_length k
      rw [h] at this
      omega
    have htne : markerTupleKey k ≠ target := by
      intro h
      have := markerTupleKey_length k
      rw [h] at this
      omega
    have hkne : k ≠ target := by
      intro h
      subst h
      simp [ht2] at hk
    rw [frameEntries_cons hk, List.append_assoc, lookup_skip_bytesMarker v _ hbne,
      lookup_skip_tupleMarker v _ htne]
    simp [lookupStr, hkne, ih (fun kv2 h2 => hgood kv2 (by simp [h2]))]

/-- Keys absent from the fields have no markers among the frame
entries. -/
theorem lookup_frameEntries_marker_none {fields : List (String × Value)} {k0 : String}
    (habs : ∀ kv ∈ fields, kv.1 ≠ k0)
    (hgood : ∀ kv ∈ fields, (baseKeys.contains kv.1 || startsU2 kv.1) = false) :
    lookupStr (frameEntries fields) (markerBytesKey k0) = none ∧
      lookupStr (frameEntries fields) (markerTupleKey k0) = none := by
  induction fields with
  | nil => exact ⟨rfl, rfl⟩
  | cons kv rest ih =>
    obtain ⟨k, v⟩ := kv
    have hk := hgood (k, v) (by simp)
    have hkk0 : k ≠ k0 := habs (k, v) (by simp)
    have hrest := ih (fun kv2 h2 => habs kv2 (by simp [h2]))
      (fun kv2 h2 => hgood kv2 (by simp [h2]))
    have hnu2 : startsU2 k = false := by
      cases hsk : startsU2 k with
      | false => rfl
      | true =>
        rw [hsk] at hk
        simp at hk
    constructor
    · rw [frameEntries_cons hk, List.append_assoc,
        lookup_skip_bytesMarker v _ (fun h => hkk0 (markerBytesKey_inj h)),
        lookup_skip_tupleMarker v _ (fun h => markerBytesKey_ne_tupleKey k0 k h.symm)]
      have hkm : k ≠ markerBytesKey k0 :=
        (startsU2_ne (startsU2_markerBytesKey k0) hnu2).symm
      simp [lookupStr, hkm, hrest.1]
    · rw [frameEntries_cons hk, List.append_assoc,
        lookup_skip_bytesMarker v _ (fun h => markerBytesKey_ne_tupleKey k k0 h),
        lookup_skip_tupleMarker v _ (fun h => hkk0 (markerTupleKey_inj h))]
      have hkm : k ≠ markerTupleKey k0 :=
        (startsU2_ne (startsU2_markerTupleKey k0) hnu2).symm
      simp [lookupStr, hkm, hrest.2]

/-- Bytes-marker lookup against its own field's marker block. -/
theorem lookup_bytesMarker_self (k : String) (v : Value) (l : List (String × Value)) :
    lookupStr (bytesMarkerOf k v ++ l) (markerBytesKey k) =
      if isBytesV v then some (Value.vbool true) else lookupStr l (markerBytesKey k) := by
  cases v <;> simp [bytesMarkerOf, isBytesV, lookupStr]

/-- Tuple-marker lookup against its own field's marker block. -/
theorem lookup_tupleMarker_self (k : String) (v : Value) (l : List (String × Value)) :
    lookupStr (tupleMarkerOf k v ++ l) (markerTupleKey k) =
      if isTupleV v then some (Value.vbool true) else lookupStr l (markerTupleKey k) := by
  cases v with
  | varr tup items => cases tup <;> simp [tupleMarkerOf, isTupleV, lookupStr]
  | _ => rfl

/-- Marker lookups for a present field: the bytes marker is in the dict
exactly when the field value is a byte array, the tuple marker exactly
when it is a tuple-flagged array. -/
theorem lookup_frameEntries_markers {fields : List (String × Value)} {k0 : String} {v0 : Value}
    (hnodup : (fields.map Prod.fst).Nodup)
    (hgood : ∀ kv ∈ fields, (baseKeys.contains kv.1 || startsU2 kv.1) = false)
    (hfind : lookupStr fields k0 = some v0) :
    lookupStr (frameEntries fields) (markerBytesKey k0) =
      (if isBytesV v0 then some (Value.vbool true) else none) ∧
    lookupStr (frameEntries fields) (markerTupleKey k0) =
      (if isTupleV v0 then some (Value.vbool true) else none) := by
  induction fields with
  | nil => simp [lookupStr] at hfind
  | cons kv rest ih =>
    obtain ⟨k, v⟩ := kv
    have hk := hgood (k, v) (by simp)
    have hnu2 : startsU2 k = false := by
      cases hsk : startsU2 k with
      | false => rfl
      | true =>
        rw [hsk] at hk
        simp at hk
    simp only [List.map_cons, List.nodup_cons] at hnodup
    by_cases hkk : k = k0
    · subst hkk
      have hv : v = v0 := by simpa [lookupStr] using hfind
      subst hv
      have habs : ∀ kv2 ∈ rest, kv2.1 ≠ k := by
        intro kv2 h2 he
        exact hnodup.1 (he ▸ List.mem_map_of_mem Prod.fst h2)
      have hnone := lookup_frameEntries_marker_none habs
        (fun kv2 h2 => hgood kv2 (by simp [h2]))
      have hent : k ≠ markerBytesKey k :=
        (startsU2_ne (startsU2_markerBytesKey k) hnu2).symm
      have hent2 : k ≠ markerTupleKey k :=
        (startsU2_ne (startsU2_markerTupleKey k) hnu2).symm
      rw [frameEntries_cons hk, List.append_assoc]
      constructor
      · rw [lookup_bytesMarker_self,
          lookup_skip_tupleMarker v _ (fun h => markerBytesKey_ne_tupleKey k k h.symm),
          show lookupStr ((k, serializeValue v) :: frameEntries rest) (markerBytesKey k) =
            lookupStr (frameEntries rest) (markerBytesKey k) from by simp [lookupStr, hent],
          hnone.1]
      · rw [lookup_skip_bytesMarker v _ (markerBytesKey_ne_tupleKey k k),
          lookup_tupleMarker_self,
          show lookupStr ((k, serializeValue v) :: frameEntries rest) (markerTupleKey k) =
            lookupStr (frameEntries rest) (markerTupleKey k) from by simp [lookupStr, hent2],
          hnone.2]
    · have hfind2 : lookupStr rest k0 = some v0 := by
        simpa [lookupStr, hkk] using hfind
      have hrec := ih hnodup.2 (fun kv2 h2 => hgood kv2 (by simp [h2])) hfind2
      have hb1 : markerBytesKey k ≠ markerBytesKey k0 := fun h => hkk (markerBytesKey_inj h)
      have hb2 : markerTupleKey k ≠ markerBytesKey k0 :=
        fun h => markerBytesKey_ne_tupleKey k0 k h.symm
      have hb3 : k ≠ markerBytesKey k0 :=
        (startsU2_ne (startsU2_markerBytesKey k0) hnu2).symm
      have ht1 : markerBytesKey k ≠ markerTupleKey k0 := markerBytesKey_ne_tupleKey k k0
      have ht2 : markerTupleKey k ≠ markerTupleKey k0 := fun h => hkk (markerTupleKey_inj h)
      have ht3 : k ≠ markerTupleKey k0 :=
        (startsU2_ne (startsU2_markerTupleKey k0) hnu2).symm
      rw [frameEntries_cons hk, List.append_assoc]
      constructor
      · rw [lookup_skip_bytesMarker v _ hb1, lookup_skip_tupleMarker v _ hb2,
          show lookupStr ((k, serializeValue v) :: frameEntries rest) (markerBytesKey k0) =
            lookupStr (frameEntries rest) (markerBytesKey k0) from by simp [lookupStr, hb3],
          hrec.1]
      · rw [lookup_skip_bytesMarker v _ ht1, lookup_skip_tupleMarker v _ ht2,
          show lookupStr ((k, serializeValue v) :: frameEntries rest) (markerTupleKey k0) =
            lookupStr (frameEntries rest) (markerTupleKey k0) from by simp [lookupStr, ht3],
          hrec.2]

/-! ## Lemmas: rebuilding the constructor arguments -/

theorem buildArgs_skip {all l : List (String × Value)} {key : String} {x : Value}
    (h : startsU2 key = true) :
    buildArgs all ((key, x) :: l) = buildArgs all l := by
  rw [buildArgs.eq_def]
  simp [h]

theorem buildArgs_skip_bytesMarker {all l : List (String × Value)} {k : String} (v : Value) :
    buildArgs all (bytesMarkerOf k v ++ l) = buildArgs all l := by
  cases v <;>
    simp [bytesMarkerOf, buildArgs_skip (startsU2_markerBytesKey k)]

theorem buildArgs_skip_tupleMarker {all l : List (String × Value)} {k : String} (v : Value) :
    buildArgs all (tupleMarkerOf k v ++ l) = buildArgs all l := by
  cases v with
  | varr tup items =>
    cases tup <;> simp [tupleMarkerOf, buildArgs_skip (startsU2_markerTupleKey k)]
  | _ => rfl

/-- The constructor-argument loop recovers exactly the original fields
from their frame entries, when the marker lookups in the surrounding
dict report the original blob/tuple shape. -/
theorem buildArgs_frameEntries {all : List (String × Value)} (fs : List (String × Value))
    (hmB : ∀ kv ∈ fs, truthy ((lookupStr all (markerBytesKey kv.1)).getD .vundef) = isBytesV kv.2)
    (hmT : ∀ kv ∈ fs, truthy ((lookupStr all (markerTupleKey kv.1)).getD .vundef) = isTupleV kv.2)
    (hgood : ∀ kv ∈ fs, (baseKeys.contains kv.1 || startsU2 kv.1) = false)
    (hsafe : ∀ kv ∈ fs, topSafe kv.2 = true) :
    buildArgs all (frameEntries fs) = .ok fs := by
  induction fs with
  | nil => rfl
  | cons kv rest ih =>
    obtain ⟨k, v⟩ := kv
    have hk := hgood (k, v) (by simp)
    obtain ⟨hk1, hk2⟩ : baseKeys.contains k = false ∧ startsU2 k = false := by
      simpa [Bool.or_eq_false_iff] using hk
    obtain ⟨hnf, _, htop⟩ := topSafe_parts (hsafe (k, v) (by simp))
    have hrt := deserialize_serialize_top hnf
    rw [htop] at hrt
    have hrec := ih (fun kv2 h2 => hmB kv2 (by simp [h2]))
      (fun kv2 h2 => hmT kv2 (by simp [h2]))
      (fun kv2 h2 => hgood kv2 (by simp [h2]))
      (fun kv2 h2 => hsafe kv2 (by simp [h2]))
    rw [frameEntries_cons hk, List.append_assoc, buildArgs_skip_bytesMarker v,
      buildArgs_skip_tupleMarker v, buildArgs.eq_def]
    simp only [hk1, hk2, Bool.or_self, Bool.false_eq_true, if_false,
      hmB (k, v) (by simp), hmT (k, v) (by simp), hrt, hrec]

/-! ## Lemmas: the serialized dict is JSON-compatible -/

theorem jsonCompatibleFields_append (l1 l2 : List (String × Value)) :
    jsonCompatibleFields (l1 ++ l2) =
      (jsonCompatibleFields l1 && jsonCompatibleFields l2) := by
  induction l1 with
  | nil => simp [jsonCompatibleFields]
  | cons kv rest ih =>
    obtain ⟨k, v⟩ := kv
    simp [jsonCompatibleFields, ih, Bool.and_assoc]

theorem jsonCompatibleFields_frameEntries (fs : List (String × Value))
    (hsafe : ∀ kv ∈ fs, topSafe kv.2 = true) :
    jsonCompatibleFields (frameEntries fs) = true := by
  induction fs with
  | nil => rfl
  | cons kv rest ih =>
    obtain ⟨k, v⟩ := kv
    have hrec := ih (fun kv2 h2 => hsafe kv2 (by simp [h2]))
    have hcomp := (topSafe_parts (hsafe (k, v) (by simp))).2.1
    rw [frameEntries.eq_def]
    by_cases hk : (baseKeys.contains k || startsU2 k) = true
    · have hk2 : k ∈ baseKeys ∨ startsU2 k = true := by simpa using hk
      simp [hk2, hrec]
    · simp only [Bool.not_eq_true, Bool.or_eq_false_iff] at hk
      have hmem : k ∉ baseKeys := by simpa using hk.1
      have hb : jsonCompatibleFields (bytesMarkerOf k v) = true := by
        cases v <;> simp [bytesMarkerOf, jsonCompatibleFields, jsonCompatible]
      have ht : jsonCompatibleFields (tupleMarkerOf k v) = true := by
        cases v with
        | varr tup items =>
          cases tup <;> simp [tupleMarkerOf, jsonCompatibleFields, jsonCompatible]
        | _ => rfl
      simp [hmem, hk.2, jsonCompatibleFields_append, hb, ht,
        jsonCompatibleFields, hcomp, hrec]

theorem baseEntriesOf_nil {fields : List (String × Value)}
    (h : ∀ kv ∈ fields, baseKeys.contains kv.1 = false) :
    baseEntriesOf fields = [] := by
  rw [baseEntriesOf, List.filterMap_eq_nil_iff]
  intro b hb
  rw [lookupStr_none]
  · rfl
  · intro kv hkv he
    have := h kv hkv
    rw [he] at this
    have : b ∉ baseKeys := by simpa using this
    exact this hb

theorem lookupStr_mem_nodup {α : Type} {l : List (String × α)}
    (hnodup : (l.map Prod.fst).Nodup) {k : String} {v : α} (hmem : (k, v) ∈ l) :
    lookupStr l k = some v := by
  induction l with
  | nil => simp at hmem
  | cons kv rest ih =>
    obtain ⟨k0, v0⟩ := kv
    simp only [List.map_cons, List.nodup_cons] at hnodup
    rcases List.mem_cons.mp hmem with h | h
    · cases h
      simp [lookupStr]
    · have hne : k0 ≠ k := by
        intro he
        exact hnodup.1 (he ▸ List.mem_map_of_mem Prod.fst h)
      simp [lookupStr, hne, ih hnodup.2 h]

/-- Amended round trip for generic frames: a frame with a nonempty type
tag whose field names are generic (not well-known base names, no
underscore prefix, no duplicates) and whose field values are top-safe
(primitives, binary blobs, tuple-flagged or plain lists of primitives;
no blobs, tuple flags or frames below the top level) encodes to a
payload that decodes back to the identical frame. -/
theorem serialize_deserialize_frame (t : String) (fields : List (String × Value))
    (htag : t ≠ "")
    (hnames : ∀ kv ∈ fields, goodKey kv.1 = true)
    (hnodup : (fields.map Prod.fst).Nodup)
    (hvals : ∀ kv ∈ fields, topSafe kv.2 = true) :
    ∃ s, serialize (.vframe t fields) = .payload s ∧
      deserialize (.vstr s) = .raw (.vframe t fields) := by
  have hgood : ∀ kv ∈ fields, (baseKeys.contains kv.1 || startsU2 kv.1) = false := by
    intro kv h2
    have hg := hnames kv h2
    simp only [goodKey, Bool.and_eq_true, Bool.not_eq_true'] at hg
    rw [hg.1, hg.2]
    rfl
  have hcontains : ∀ kv ∈ fields, baseKeys.contains kv.1 = false := by
    intro kv h2
    have hg := hnames kv h2
    simp only [goodKey, Bool.and_eq_true, Bool.not_eq_true'] at hg
    exact hg.1
  have hbase : baseEntriesOf fields = [] := baseEntriesOf_nil hcontains
  have hser : serialize (.vframe t fields) = .payload (String.mk (jsonChars (Json.obj
      (toJsonFields (("___frame___", Value.vstr t) :: frameEntries fields))))) := by
    simp [serialize, frameToDict, ctorName, ownFields, hbase]
  refine ⟨_, hser, ?_⟩
  have hcompat : jsonCompatibleFields (("___frame___", Value.vstr t) ::
      frameEntries fields) = true := by
    simp [jsonCompatibleFields, jsonCompatible,
      jsonCompatibleFields_frameEntries fields hvals]
  have hjv : jsValueOfJson (Json.obj (toJsonFields (("___frame___", Value.vstr t) ::
      frameEntries fields))) =
      Value.vobj (("___frame___", Value.vstr t) :: frameEntries fields) := by
    have h2 := jsValueOfJson_toJson
      (v := Value.vobj (("___frame___", Value.vstr t) :: frameEntries fields))
      (by simpa [jsonCompatible] using hcompat)
    have h3 : toJson (Value.vobj (("___frame___", Value.vstr t) :: frameEntries fields)) =
        some (Json.obj (toJsonFields (("___frame___", Value.vstr t) ::
          frameEntries fields))) := by
      simp [toJson]
    rw [h3] at h2
    simpa using h2
  have hparse := jsonParse_jsonStr (Json.obj (toJsonFields (("___frame___", Value.vstr t) ::
    frameEntries fields)))
  have htype : lookupStr (("___frame___", Value.vstr t) :: frameEntries fields)
      "___type___" = none := by
    rw [show lookupStr (("___frame___", Value.vstr t) :: frameEntries fields) "___type___" =
      lookupStr (frameEntries fields) "___type___" from by simp [lookupStr]]
    exact lookup_frameEntries_shortU2 hgood (by rfl) (by decide)
  have htagl : lookupStr (("___frame___", Value.vstr t) :: frameEntries fields)
      "___frame___" = some (Value.vstr t) := by
    simp [lookupStr]
  have hmB : ∀ kv ∈ fields, truthy ((lookupStr (("___frame___", Value.vstr t) ::
      frameEntries fields) (markerBytesKey kv.1)).getD .vundef) = isBytesV kv.2 := by
    intro kv h2
    have hhd : ("___frame___" : String) ≠ markerBytesKey kv.1 := by
      intro h
      have := markerBytesKey_length kv.1
      rw [← h] at this
      rw [show ("___frame___" : String).length = 11 from rfl] at this
      omega
    obtain ⟨k, v⟩ := kv
    have hfind := lookupStr_mem_nodup hnodup h2
    have hm := (lookup_frameEntries_markers hnodup hgood hfind).1
    rw [show lookupStr (("___frame___", Value.vstr t) :: frameEntries fields)
      (markerBytesKey k) = lookupStr (frameEntries fields) (markerBytesKey k) from by
        simp [lookupStr, hhd], hm]
    cases hbb : isBytesV v <;> simp [truthy]
  have hmT : ∀ kv ∈ fields, truthy ((lookupStr (("___frame___", Value.vstr t) ::
      frameEntries fields) (markerTupleKey kv.1)).getD .vundef) = isTupleV kv.2 := by
    intro kv h2
    have hhd : ("___frame___" : String) ≠ markerTupleKey kv.1 := by
      intro h
      have := markerTupleKey_length kv.1
      rw [← h] at this
      rw [show ("___frame___" : String).length = 11 from rfl] at this
      omega
    obtain ⟨k, v⟩ := kv
    have hfind := lookupStr_mem_nodup hnodup h2
    have hm := (lookup_frameEntries_markers hnodup hgood hfind).2
    rw [show lookupStr (("___frame___", Value.vstr t) :: frameEntries fields)
      (markerTupleKey k) = lookupStr (frameEntries fields) (markerTupleKey k) from by
        simp [lookupStr, hhd], hm]
    cases hbb : isTupleV v <;> simp [truthy]
  have hbargs : buildArgs (("___frame___", Value.vstr t) :: frameEntries fields)
      (("___frame___", Value.vstr t) :: frameEntries fields) = .ok fields := by
    rw [buildArgs_skip (show startsU2 "___frame___" = true from rfl)]
    exact buildArgs_frameEntries fields hmB hmT hgood hvals
  have hbasedict : ∀ b ∈ baseKeys, lookupStr (("___frame___", Value.vstr t) ::
      frameEntries fields) b = none := by
    intro b hb
    have hbne : ("___frame___" : String) ≠ b := by
      fin_cases hb <;> decide
    have hbu2 : startsU2 b = false := by
      fin_cases hb <;> rfl
    rw [show lookupStr (("___frame___", Value.vstr t) :: frameEntries fields) b =
      lookupStr (frameEntries fields) b from by simp [lookupStr, hbne],
      lookupStr_frameEntries_plain hgood hbu2,
      lookupStr_none (l := fields) (k := b) ?_]
    · rfl
    · intro kv h2 he
      have hc := hcontains kv h2
      rw [he] at hc
      have : b ∈ baseKeys := hb
      simp [this] at hc
  have hbase2 : baseEntriesOf (("___frame___", Value.vstr t) :: frameEntries fields) = [] := by
    rw [baseEntriesOf, List.filterMap_eq_nil_iff]
    intro b hb
    rw [hbasedict b hb]
    rfl
  have hdtf : dictToFrame (Value.vobj (("___frame___", Value.vstr t) ::
      frameEntries fields)) = Value.vframe t fields := by
    rw [dictToFrame]
    simp only [ownFields, htagl, Option.getD_some]
    rw [if_neg (by simp [truthy, htag]), hbargs]
    simp [jsToString, hbase2]
  show deserialize (.vstr (jsonStr (Json.obj (toJsonFields (("___frame___", Value.vstr t) ::
    frameEntries fields))))) = _
  rw [deserialize]
  simp only [hparse, hjv]
  rw [deserializeParsed]
  · simp only [ownFields, htype]
    rw [if_neg (by simp [isStrEq]), if_neg (by simp [isStrEq]), hdtf]
  all_goals simp

/-! ## Lemmas: decoded frames and marker hygiene -/

theorem baseKeys_notU2 : ∀ b ∈ baseKeys, startsU2 b = false := by decide

theorem baseEntriesOf_keys {fields : List (String × Value)} :
    ∀ kv ∈ baseEntriesOf fields, kv.1 ∈ baseKeys := by
  intro kv hkv
  obtain ⟨b, hb, hfb⟩ := List.mem_filterMap.mp hkv
  cases hlb : lookupStr fields b with
  | none => rw [hlb] at hfb; simp at hfb
  | some v =>
    rw [hlb] at hfb
    have hfb2 : some (b, v) = some kv := hfb
    injection hfb2 with h3
    cases h3
    exact hb

theorem buildArgs_skip_base {all l : List (String × Value)} {key : String} {x : Value}
    (h : baseKeys.contains key = true) :
    buildArgs all ((key, x) :: l) = buildArgs all l := by
  rw [buildArgs.eq_def]
  simp [show key ∈ baseKeys from by simpa using h]

theorem buildArgs_cons_keep {all l : List (String × Value)} {k : String} {v : Value}
    (h1 : startsU2 k = false) (h2 : baseKeys.contains k = false) :
    buildArgs all ((k, v) :: l) =
      (match deserializeValue v
          (truthy ((lookupStr all (markerBytesKey k)).getD .vundef))
          (truthy ((lookupStr all (markerTupleKey k)).getD .vundef)) with
        | .error e => .error e
        | .ok v' =>
          match buildArgs all l with
          | .error e => .error e
          | .ok rest' => .ok ((k, v') :: rest')) := by
  rw [buildArgs.eq_def]
  simp [h1, show k ∉ baseKeys from by simpa using h2]

/-- Every constructor argument the decoder builds has a key that does
not start with two underscores. -/
theorem buildArgs_keys {all : List (String × Value)} :
    ∀ {cur args}, buildArgs all cur = .ok args → ∀ kv ∈ args, startsU2 kv.1 = false := by
  intro cur
  induction cur with
  | nil =>
    intro args h kv hkv
    simp only [buildArgs] at h
    cases h
    simp at hkv
  | cons kv0 rest ih =>
    intro args h kv hkv
    obtain ⟨k0, v0⟩ := kv0
    cases hu : startsU2 k0 with
    | true =>
      rw [buildArgs_skip hu] at h
      exact ih h kv hkv
    | false =>
      cases hb : baseKeys.contains k0 with
      | true =>
        rw [buildArgs_skip_base hb] at h
        exact ih h kv hkv
      | false =>
        rw [buildArgs_cons_keep hu hb] at h
        cases hd : deserializeValue v0
            (truthy ((lookupStr all (markerBytesKey k0)).getD Value.vundef))
            (truthy ((lookupStr all (markerTupleKey k0)).getD Value.vundef)) with
        | error e => rw [hd] at h; cases h
        | ok w =>
          rw [hd] at h
          cases hr : buildArgs all rest with
          | error e => rw [hr] at h; cases h
          | ok args2 =>
            rw [hr] at h
            cases h
            rcases List.mem_cons.mp hkv with h2 | h2
            · cases h2
              exact hu
            · exact ih hr kv h2

/-- Looking up a generic key among the constructor arguments recovers
the deserialized field; for a string field with its bytes marker set,
the base64-decoded bytes. -/
theorem buildArgs_lookup_bytes {all : List (String × Value)} :
    ∀ {cur args k s bs}, buildArgs all cur = .ok args →
      lookupStr cur k = some (.vstr s) →
      startsU2 k = false → baseKeys.contains k = false →
      lookupStr all (markerBytesKey k) = some (.vbool true) →
      atobChars s.data = some bs →
      lookupStr args k = some (.vbytes bs) := by
  intro cur
  induction cur with
  | nil =>
    intro args k s bs h hfind
    simp [lookupStr] at hfind
  | cons kv0 rest ih =>
    intro args k s bs h hfind hk hkb hmark hdec
    obtain ⟨k0, v0⟩ := kv0
    cases hu : startsU2 k0 with
    | true =>
      have hne : k0 ≠ k := startsU2_ne hu hk
      rw [buildArgs_skip hu] at h
      have hfind2 : lookupStr rest k = some (.vstr s) := by
        simpa [lookupStr, hne] using hfind
      exact ih h hfind2 hk hkb hmark hdec
    | false =>
      cases hb : baseKeys.contains k0 with
      | true =>
        have hne : k0 ≠ k := by
          intro he
          subst he
          rw [hb] at hkb
          exact Bool.noConfusion hkb
        rw [buildArgs_skip_base hb] at h
        have hfind2 : lookupStr rest k = some (.vstr s) := by
          simpa [lookupStr, hne] using hfind
        exact ih h hfind2 hk hkb hmark hdec
      | false =>
        rw [buildArgs_cons_keep hu hb] at h
        by_cases hkk : k0 = k
        · subst hkk
          have hv : v0 = .vstr s := by simpa [lookupStr] using hfind
          subst hv
          rw [show deserializeValue (Value.vstr s)
              (truthy ((lookupStr all (markerBytesKey k0)).getD Value.vundef))
              (truthy ((lookupStr all (markerTupleKey k0)).getD Value.vundef)) =
              .ok (.vbytes bs) from by
            rw [hmark, deserializeValue.eq_def]
            simp [truthy, atob, hdec]] at h
          cases hr : buildArgs all rest with
          | error e => rw [hr] at h; cases h
          | ok args2 =>
            rw [hr] at h
            cases h
            simp [lookupStr]
        · have hfind2 : lookupStr rest k = some (.vstr s) := by
            simpa [lookupStr, hkk] using hfind
          cases hd : deserializeValue v0
              (truthy ((lookupStr all (markerBytesKey k0)).getD Value.vundef))
              (truthy ((lookupStr all (markerTupleKey k0)).getD Value.vundef)) with
          | error e => rw [hd] at h; cases h
          | ok w =>
            rw [hd] at h
            cases hr : buildArgs all rest with
            | error e => rw [hr] at h; cases h
            | ok args2 =>
              rw [hr] at h
              cases h
              simp only [lookupStr, if_neg hkk]
              exact ih hr hfind2 hk hkb hmark hdec

/-- Looking up a generic (non-underscore, non-base) key through the
frame entries of an arbitrary frame. -/
theorem lookupStr_frameEntries_target {fields : List (String × Value)} {target : String}
    (ht : startsU2 target = false) (htb : baseKeys.contains target = false) :
    lookupStr (frameEntries fields) target = (lookupStr fields target).map serializeValue := by
  induction fields with
  | nil => rfl
  | cons kv rest ih =>
    obtain ⟨k, v⟩ := kv
    cases hu : startsU2 k with
    | true =>
      have hne : k ≠ target := startsU2_ne hu ht
      rw [show frameEntries ((k, v) :: rest) = frameEntries rest from by
        rw [frameEntries.eq_def]
        simp [hu]]
      simp [lookupStr, hne, ih]
    | false =>
      cases hbk : baseKeys.contains k with
      | true =>
        have hne : k ≠ target := by
          intro he
          subst he
          rw [hbk] at htb
          exact Bool.noConfusion htb
        rw [show frameEntries ((k, v) :: rest) = frameEntries rest from by
          rw [frameEntries.eq_def]
          simp [show k ∈ baseKeys from by simpa using hbk]]
        simp [lookupStr, hne, ih]
      | false =>
        rw [frameEntries_cons (by rw [hbk, hu]; rfl), List.append_assoc,
          lookup_skip_bytesMarker v _ (startsU2_ne (startsU2_markerBytesKey k) ht),
          lookup_skip_tupleMarker v _ (startsU2_ne (startsU2_markerTupleKey k) ht)]
        by_cases hkt : k = target
        · simp [lookupStr, hkt]
        · simp [lookupStr, hkt, ih]

theorem lookupStr_filter_keep {fields : List (String × Value)} {b : String}
    (hb : startsU2 b = false) :
    lookupStr (fields.filter (fun kv => !startsU2 kv.1)) b = lookupStr fields b := by
  induction fields with
  | nil => rfl
  | cons kv rest ih =>
    obtain ⟨k, v⟩ := kv
    cases hk : startsU2 k with
    | true =>
      have hne : k ≠ b := startsU2_ne hk hb
      simp [List.filter, hk, lookupStr, hne, ih]
    | false =>
      by_cases hkb : k = b
      · subst hkb
        simp [List.filter, hk, lookupStr]
      · simp [List.filter, hk, lookupStr, hkb, ih]

theorem frameEntries_filter (fields : List (String × Value)) :
    frameEntries (fields.filter (fun kv => !startsU2 kv.1)) = frameEntries fields := by
  induction fields with
  | nil => rfl
  | cons kv rest ih =>
    obtain ⟨k, v⟩ := kv
    cases hk : startsU2 k with
    | true =>
      rw [show frameEntries ((k, v) :: rest) = frameEntries rest from by
        rw [frameEntries.eq_def]
        simp [hk]]
      simpa [List.filter, hk] using ih
    | false =>
      simp only [List.filter, hk, Bool.not_false]
      cases hbk : baseKeys.contains k with
      | true =>
        rw [show frameEntries ((k, v) :: rest) = frameEntries rest from by
            rw [frameEntries.eq_def]
            simp [show k ∈ baseKeys from by simpa using hbk],
          show frameEntries ((k, v) :: List.filter (fun kv => !startsU2 kv.1) rest) =
              frameEntries (List.filter (fun kv => !startsU2 kv.1) rest) from by
            rw [frameEntries.eq_def]
            simp [show k ∈ baseKeys from by simpa using hbk]]
        exact ih
      | false =>
        rw [frameEntries_cons (by rw [hbk, hk]; rfl), frameEntries_cons (by rw [hbk, hk]; rfl), ih]

theorem baseEntriesOf_filter (fields : List (String × Value)) :
    baseEntriesOf (fields.filter (fun kv => !startsU2 kv.1)) = baseEntriesOf fields := by
  rw [baseEntriesOf, baseEntriesOf]
  apply List.filterMap_congr
  intro b hb
  rw [lookupStr_filter_keep (baseKeys_notU2 b hb)]

/-! ## Final helper lemmas for the claim theorems -/

theorem lookupStr_append_some {α : Type} {l1 l2 : List (String × α)} {k : String} {v : α}
    (h : lookupStr l1 k = some v) : lookupStr (l1 ++ l2) k = some v := by
  induction l1 with
  | nil => simp [lookupStr] at h
  | cons kv rest ih =>
    obtain ⟨k0, v0⟩ := kv
    rw [List.cons_append]
    by_cases hk : k0 = k
    · simp only [lookupStr, if_pos hk] at h ⊢
      exact h
    · simp only [lookupStr, if_neg hk] at h ⊢
      exact ih h

theorem topPreserve_deepSafe {v : Value} (h : deepSafe v = true) : topPreserve v = v := by
  cases v with
  | vnull => rfl
  | vundef => simp [deepSafe] at h
  | vbool b => exact (deepSafe_parts h).2.2.2
  | vnum n => exact (deepSafe_parts h).2.2.2
  | vstr s => exact (deepSafe_parts h).2.2.2
  | vbytes bs => simp [deepSafe] at h
  | varr tup items =>
    simp only [deepSafe, Bool.and_eq_true, Bool.not_eq_true'] at h
    rw [topPreserve, (deepSafeList_parts h.2).2.2.2, h.1]
  | vobj fields => simp [deepSafe] at h
  | vframe t fields => simp [deepSafe] at h
  | vfunc src => simp [deepSafe] at h

/-- Decoding a parsed object that is a generic frame envelope: the
discriminator is neither audio nor message, the frame-type key holds a
non-empty tag, and the constructor-argument loop succeeds. -/
theorem deserialize_obj_frame {fields : List (String × Value)} {t : String}
    {args : List (String × Value)}
    (htype : isStrEq ((lookupStr fields "___type___").getD .vundef) "audio" = false)
    (htype2 : isStrEq ((lookupStr fields "___type___").getD .vundef) "message" = false)
    (htag : lookupStr fields "___frame___" = some (.vstr t)) (ht : t ≠ "")
    (hargs : buildArgs fields fields = .ok args) :
    deserialize (.vobj fields) = .raw (.vframe t (args ++ baseEntriesOf fields)) := by
  have hdtf : dictToFrame (Value.vobj fields) = .vframe t (args ++ baseEntriesOf fields) := by
    rw [dictToFrame]
    simp only [ownFields]
    rw [htag, Option.getD_some]
    rw [if_neg (by simp [truthy, ht]), hargs]
    simp [jsToString]
  have hclean : deserialize (Value.vobj fields) =
      (match deserializeParsed (Value.vobj fields) with
       | .ok r => r
       | .error _ => DecodeResult.raw .vnull) := rfl
  rw [hclean]
  rw [deserializeParsed]
  · simp only [ownFields]
    rw [if_neg (by rw [htype]; simp), if_neg (by rw [htype2]; simp), hdtf]
  all_goals simp

/-- Decoding a parsed message envelope hands the message value through. -/
theorem deserializeParsed_message_envelope (m : Value) :
    deserializeParsed (.vobj [("___type___", .vstr "message"), ("message", m)]) =
      .ok (.message m) := by
  rw [deserializeParsed]
  · rw [show (lookupStr (ownFields (Value.vobj [("___type___", Value.vstr "message"),
        ("message", m)])) "___type___").getD Value.vundef = Value.vstr "message" from rfl,
      if_neg (by decide), if_pos (by decide)]
    rfl
  all_goals simp

theorem deserialize_jsonStr (j : Json) :
    deserialize (.vstr (jsonStr j)) =
      (match deserializeParsed (jsValueOfJson j) with
       | .ok r => r
       | .error _ => DecodeResult.raw .vnull) := by
  simp only [deserialize, jsonParse_jsonStr]

/-! ## The claims -/

/-- Claim C1 (corrected): the unrestricted round-trip claim fails — a
nested frame with a binary-blob field decodes to a plain object whose
blob became a base64 string, because `_serializeValue` emits no sibling
markers and no frame-type key below the top level.  Here the serializer
output for such a frame decodes to a different value than the
original. -/
theorem c1_nested_frame_cex :
    deserialize (wireOf (serialize (.vframe "Outer"
        [("child", .vframe "Inner" [("data", .vbytes [1, 2])])]))) =
      .raw (.vframe "Outer" [("child", .vobj [("data", .vstr "AQI=")])]) ∧
    Value.vobj [("data", .vstr "AQI=")] ≠
      Value.vframe "Inner" [("data", .vbytes [1, 2])] :=
  ⟨rfl, fun h => Value.noConfusion h⟩

/-- Claim C1 (amended): round-trip identity holds for every frame with
a non-empty type tag and distinct generic field names (not base keys,
not underscore-prefixed) whose values are primitives, binary blobs,
tuple-flagged sequences of primitive trees, or plain lists of primitive
trees: serializing yields a payload string that decodes to a raw result
carrying the identical frame, blobs byte-for-byte and tuple flags
intact. -/
theorem c1_generic_frame_round_trip (t : String) (fields : List (String × Value))
    (htag : t ≠ "")
    (hnames : ∀ kv ∈ fields, goodKey kv.1 = true)
    (hnodup : (fields.map Prod.fst).Nodup)
    (hvals : ∀ kv ∈ fields, topSafe kv.2 = true) :
    ∃ s, serialize (.vframe t fields) = .payload s ∧
      deserialize (.vstr s) = .raw (.vframe t fields) :=
  serialize_deserialize_frame t fields htag hnames hnodup hvals

theorem c1_generic_frame_round_trip_witness :
    ∃ s, serialize (.vframe "TranscriptFrame"
        [("text", .vstr "hello"), ("final", .vbool true), ("audio", .vbytes [1, 2]),
         ("words", .varr true [.vstr "a", .vstr "b"])]) = .payload s ∧
      deserialize (.vstr s) = .raw (.vframe "TranscriptFrame"
        [("text", .vstr "hello"), ("final", .vbool true), ("audio", .vbytes [1, 2]),
         ("words", .varr true [.vstr "a", .vstr "b"])]) :=
  c1_generic_frame_round_trip "TranscriptFrame"
    [("text", .vstr "hello"), ("final", .vbool true), ("audio", .vbytes [1, 2]),
     ("words", .varr true [.vstr "a", .vstr "b"])]
    (by decide) (by decide) (by decide) (by decide)

/-- Claim C2 (corrected): shape preservation fails below the top level —
a binary blob nested inside a plain list comes back as its base64
string, because markers exist only for direct frame fields.  The decoded
field here is a string, not the original blob. -/
theorem c2_nested_blob_cex :
    deserialize (wireOf (serialize (.vframe "F" [("f", .varr false [.vbytes [1]])]))) =
      .raw (.vframe "F" [("f", .varr false [.vstr "AQ=="])]) ∧
    Value.vstr "AQ==" ≠ Value.vbytes [1] :=
  ⟨rfl, fun h => Value.noConfusion h⟩

/-- Claim C2 (amended): at the top level of a frame field — where the
sibling markers apply — serialization followed by deserialization with
the markers the serializer would emit preserves the shape: blobs come
back as blobs, tuple flags survive, lists come back as lists; and the
result is the identity exactly on values that are marker-free at every
depth (primitives and plain lists of primitives). -/
theorem c2_shape_preserved_top (v : Value) (h : noFrames v = true) :
    deserializeValue (serializeValue v) (isBytesV v) (isTupleV v) = .ok (topPreserve v) ∧
    (deepSafe v = true → topPreserve v = v) :=
  ⟨deserialize_serialize_top h, fun hd => topPreserve_deepSafe hd⟩

theorem c2_shape_preserved_top_witness :
    (deserializeValue (serializeValue (.varr true [.vnum 1, .vstr "x"]))
        (isBytesV (.varr true [.vnum 1, .vstr "x"]))
        (isTupleV (.varr true [.vnum 1, .vstr "x"])) =
      .ok (topPreserve (.varr true [.vnum 1, .vstr "x"]))) ∧
    (deepSafe (.varr true [.vnum 1, .vstr "x"]) = true →
      topPreserve (.varr true [.vnum 1, .vstr "x"]) = .varr true [.vnum 1, .vstr "x"]) :=
  c2_shape_preserved_top (.varr true [.vnum 1, .vstr "x"]) (by decide)

/-- Claim C3 (code bug): the audio round trip recovers the 16-bit
samples, but the decoder reads `sampleRate` / `numChannels` while the
encoder writes `sample_rate` / `num_channels`, so the rate and channel
count come back `undefined` (and the resolved audio result drops them
entirely); moreover an odd-length buffer makes `new Int16Array` throw,
collapsing the round trip to a raw null. -/
theorem c3_audio_round_trip_bug :
    deserialize (.vstr (serializeAudio [1, 2] 16000 1)) = .audio [513] ∧
    deserializeAudio (.vobj [("___type___", .vstr "audio"), ("audio", .vstr "AQI="),
        ("sample_rate", .vnum 16000), ("num_channels", .vnum 1)]) =
      .ok ⟨[513], .vundef, .vundef⟩ ∧
    deserialize (.vstr (serializeAudio [1] 16000 1)) = .raw .vnull :=
  ⟨rfl, rfl, rfl⟩

/-- Claim C4 (confirmed): decode never throws — the concrete inputs
`"\x7bnot valid json"` and `undefined` resolve to a raw null, and in
general every parse failure, every reconstruction failure on parsed
text, and every failure on non-string input resolves to a raw null
result. -/
theorem c4_decode_total :
    deserialize (.vstr "\x7bnot valid json") = .raw .vnull ∧
    deserialize .vundef = .raw .vnull ∧
    (∀ s, jsonParse s = .error () → deserialize (.vstr s) = .raw .vnull) ∧
    (∀ s j, jsonParse s = .ok j → deserializeParsed (jsValueOfJson j) = .error () →
      deserialize (.vstr s) = .raw .vnull) ∧
    (∀ d, (∀ s, d ≠ .vstr s) → deserializeParsed d = .error () →
      deserialize d = .raw .vnull) := by
  refine ⟨rfl, rfl, ?_, ?_, ?_⟩
  · intro s h
    simp [deserialize, h]
  · intro s j h1 h2
    simp [deserialize, h1, h2]
  · intro d hne h2
    cases d <;> first
      | exact absurd rfl (hne _)
      | simp [deserialize, h2]

/-- Claim C5 (code bug): serialize does not always swallow exceptions —
on `undefined` the catch block's log message evaluates
`frame.constructor.name`, which itself throws a `TypeError` that
escapes the method; every other value yields a payload or null. -/
theorem c5_serialize_undefined_throws :
    serialize .vundef = .thrown ∧
    ∀ v, v ≠ .vundef → serialize v ≠ .thrown := by
  refine ⟨rfl, ?_⟩
  intro v hv
  cases v <;> first
    | exact absurd rfl hv
    | simp [serialize, frameToDict, ctorName]

/-- Claim C6 (confirmed): for a frame envelope carrying a bytes marker
`__k_is_bytes__: true` next to a base64 string field `k`, decoding
produces a raw frame whose `k` field is the decoded byte blob, and no
field of the reconstructed frame has a key starting with two
underscores. -/
theorem c6_marker_keys_never_leak (fields : List (String × Value)) (t k s : String)
    (bs : List Nat) (args : List (String × Value))
    (htype : isStrEq ((lookupStr fields "___type___").getD .vundef) "audio" = false)
    (htype2 : isStrEq ((lookupStr fields "___type___").getD .vundef) "message" = false)
    (htag : lookupStr fields "___frame___" = some (.vstr t)) (ht : t ≠ "")
    (hargs : buildArgs fields fields = .ok args)
    (hk : startsU2 k = false) (hkb : baseKeys.contains k = false)
    (hfield : lookupStr fields k = some (.vstr s))
    (hmark : lookupStr fields (markerBytesKey k) = some (.vbool true))
    (hdec : atobChars s.data = some bs) :
    deserialize (.vobj fields) = .raw (.vframe t (args ++ baseEntriesOf fields)) ∧
    lookupStr (args ++ baseEntriesOf fields) k = some (.vbytes bs) ∧
    ∀ kv ∈ args ++ baseEntriesOf fields, startsU2 kv.1 = false := by
  refine ⟨deserialize_obj_frame htype htype2 htag ht hargs, ?_, ?_⟩
  · exact lookupStr_append_some (buildArgs_lookup_bytes hargs hfield hk hkb hmark hdec)
  · intro kv hm
    rcases List.mem_append.mp hm with h2 | h2
    · exact buildArgs_keys hargs kv h2
    · exact baseKeys_notU2 kv.1 (baseEntriesOf_keys kv h2)

theorem c6_marker_keys_never_leak_witness :
    deserialize (.vobj [("___frame___", .vstr "F"), ("__a_is_bytes__", .vbool true),
        ("a", .vstr "AQI=")]) =
      .raw (.vframe "F" ([("a", .vbytes [1, 2])] ++
        baseEntriesOf [("___frame___", .vstr "F"), ("__a_is_bytes__", .vbool true),
          ("a", .vstr "AQI=")])) ∧
    lookupStr ([("a", .vbytes [1, 2])] ++
        baseEntriesOf [("___frame___", .vstr "F"), ("__a_is_bytes__", .vbool true),
          ("a", .vstr "AQI=")]) "a" = some (.vbytes [1, 2]) ∧
    ∀ kv ∈ ([("a", .vbytes [1, 2])] ++
        baseEntriesOf [("___frame___", .vstr "F"), ("__a_is_bytes__", .vbool true),
          ("a", .vstr "AQI=")]), startsU2 kv.1 = false :=
  c6_marker_keys_never_leak
    [("___frame___", .vstr "F"), ("__a_is_bytes__", .vbool true), ("a", .vstr "AQI=")]
    "F" "a" "AQI=" [1, 2] [("a", .vbytes [1, 2])]
    rfl rfl rfl (by decide) rfl (by decide) (by decide) rfl rfl rfl

/-- Claim C7 (confirmed): a structurally valid parsed payload whose
discriminator is neither audio nor message — including an unrecognized
one — decodes to a raw result carrying a reconstructed frame (type tag
from the frame-type key, remaining generic keys rebuilt by the
constructor-argument loop, base fields copied), not an error and not a
null message. -/
theorem c7_unknown_discriminator_raw (fields : List (String × Value)) (t : String)
    (args : List (String × Value))
    (htype : isStrEq ((lookupStr fields "___type___").getD .vundef) "audio" = false)
    (htype2 : isStrEq ((lookupStr fields "___type___").getD .vundef) "message" = false)
    (htag : lookupStr fields "___frame___" = some (.vstr t)) (ht : t ≠ "")
    (hargs : buildArgs fields fields = .ok args) :
    deserialize (.vobj fields) = .raw (.vframe t (args ++ baseEntriesOf fields)) ∧
    (Value.vframe t (args ++ baseEntriesOf fields)) ≠ .vnull :=
  ⟨deserialize_obj_frame htype htype2 htag ht hargs, fun h => Value.noConfusion h⟩

theorem c7_unknown_discriminator_raw_witness :
    deserialize (.vobj [("___type___", .vstr "mystery"), ("___frame___", .vstr "MysteryFrame"),
        ("x", .vnum 5)]) =
      .raw (.vframe "MysteryFrame" ([("x", .vnum 5)] ++
        baseEntriesOf [("___type___", .vstr "mystery"), ("___frame___", .vstr "MysteryFrame"),
          ("x", .vnum 5)])) ∧
    (Value.vframe "MysteryFrame" ([("x", .vnum 5)] ++
        baseEntriesOf [("___type___", .vstr "mystery"), ("___frame___", .vstr "MysteryFrame"),
          ("x", .vnum 5)])) ≠ .vnull :=
  c7_unknown_discriminator_raw
    [("___type___", .vstr "mystery"), ("___frame___", .vstr "MysteryFrame"), ("x", .vnum 5)]
    "MysteryFrame" [("x", .vnum 5)]
    rfl rfl rfl (by decide) rfl

/-- Claim C8 (confirmed): the message envelope passes any
JSON-compatible message value through the codec unchanged — decoding
the serialized envelope resolves to a message result deeply equal to
the original. -/
theorem c8_message_pass_through (msg : Value) (h : jsonCompatible msg = true) :
    deserialize (.vstr (serializeMessage msg)) = .message msg := by
  obtain ⟨j, hj, hjv⟩ : ∃ j, toJson msg = some j ∧ jsValueOfJson j = msg := by
    have h2 := jsValueOfJson_toJson h
    cases hjx : toJson msg with
    | none => rw [hjx] at h2; exact absurd h2 (by simp)
    | some j =>
      rw [hjx] at h2
      exact ⟨j, rfl, by simpa using h2⟩
  rw [show serializeMessage msg =
      jsonStr (Json.obj [("___type___", Json.str "message"), ("message", j)]) from by
    rw [serializeMessage, hj]
    rfl]
  rw [deserialize_jsonStr,
    show jsValueOfJson (Json.obj [("___type___", Json.str "message"), ("message", j)]) =
      Value.vobj [("___type___", Value.vstr "message"), ("message", jsValueOfJson j)] from rfl,
    deserializeParsed_message_envelope, hjv]

theorem c8_message_pass_through_witness :
    deserialize (.vstr (serializeMessage (.vobj [("a", .vnum 1),
        ("l", .varr false [.vstr "x"])]))) =
      .message (.vobj [("a", .vnum 1), ("l", .varr false [.vstr "x"])]) :=
  c8_message_pass_through (.vobj [("a", .vnum 1), ("l", .varr false [.vstr "x"])]) (by decide)

/-- Claim C9 (confirmed): a frame field holding a function serializes to
the function's string coercion — the frame dict carries the source
string under the field's key and serialization still returns a payload,
not null and not a throw. -/
theorem c9_function_field_to_string (t : String) (fields : List (String × Value))
    (k src : String)
    (hfind : lookupStr fields k = some (.vfunc src))
    (hk : startsU2 k = false) (hkb : baseKeys.contains k = false) :
    ∃ dict, frameToDict (.vframe t fields) = .ok dict ∧
      lookupStr dict k = some (.vstr src) ∧
      serialize (.vframe t fields) =
        .payload (String.mk (jsonChars (Json.obj (toJsonFields dict)))) := by
  have hfr : ("___frame___" : String) ≠ k := startsU2_ne (by decide) hk
  have hbase : lookupStr (baseEntriesOf fields) k = none := by
    apply lookupStr_none
    intro kv hm he
    have h2 : baseKeys.contains k = true := by
      simpa using he ▸ baseEntriesOf_keys kv hm
    rw [h2] at hkb
    exact Bool.noConfusion hkb
  refine ⟨("___frame___", Value.vstr t) :: baseEntriesOf fields ++ frameEntries fields,
    ?_, ?_, ?_⟩
  · simp [frameToDict, ctorName, ownFields]
  · rw [show lookupStr (("___frame___", Value.vstr t) ::
        baseEntriesOf fields ++ frameEntries fields) k =
        lookupStr (frameEntries fields) k from by
      simp only [lookupStr, if_neg hfr]
      exact lookupStr_append_none hbase]
    rw [lookupStr_frameEntries_target hk hkb, hfind]
    rfl
  · simp [serialize, frameToDict, ctorName, ownFields]

theorem c9_function_field_to_string_witness :
    ∃ dict, frameToDict (.vframe "F" [("cb", .vfunc "fn")]) = .ok dict ∧
      lookupStr dict "cb" = some (.vstr "fn") ∧
      serialize (.vframe "F" [("cb", .vfunc "fn")]) =
        .payload (String.mk (jsonChars (Json.obj (toJsonFields dict)))) :=
  c9_function_field_to_string "F" [("cb", .vfunc "fn")] "cb" "fn" rfl (by decide) (by decide)

/-- Claim C10 (confirmed, implicit): serialization ignores every frame
field whose name starts with two underscores — the payload equals the
payload of the frame with those fields removed — and every frame the
decoder reconstructs is free of such keys, so the dropped fields cannot
reappear after a round trip. -/
theorem c10_double_underscore_dropped (t : String) (fields : List (String × Value)) :
    serialize (.vframe t fields) =
      serialize (.vframe t (fields.filter (fun kv => !startsU2 kv.1))) ∧
    (∀ d t2 fs, dictToFrame d = .vframe t2 fs → ∀ kv ∈ fs, startsU2 kv.1 = false) := by
  constructor
  · simp [serialize, frameToDict, ctorName, ownFields, baseEntriesOf_filter,
      frameEntries_filter]
  · intro d t2 fs hd kv hm
    rw [dictToFrame] at hd
    by_cases hc : truthy ((lookupStr (ownFields d) "___frame___").getD .vundef) = false
    · rw [if_pos hc] at hd
      exact Value.noConfusion hd
    · rw [if_neg hc] at hd
      cases hb : buildArgs (ownFields d) (ownFields d) with
      | error e => rw [hb] at hd; exact Value.noConfusion hd
      | ok args =>
        rw [hb] at hd
        injection hd with h1 h2
        subst h2
        rcases List.mem_append.mp hm with h3 | h3
        · exact buildArgs_keys hb kv h3
        · exact baseKeys_notU2 kv.1 (baseEntriesOf_keys kv h3)

end FrameCodec
